import Mathlib

/-!
# Verification of the theora cryptography-demo core engines

Shallow embedding of the pure computation engines of the repository:
the fnv1a hash (src/lib/hash.ts), the Merkle tree engine
(src/demos/merkle/MerkleDemo.tsx), the arithmetic primitives
(src/lib/math.ts), the RSA-accumulator engine
(src/demos/accumulator/logic.ts), the polynomial / KZG-simulation engine
(src/demos/polynomial) and the recursive-proof composition engine
(src/demos/recursive/logic.ts).

JavaScript strings are modelled as lists of UTF-16 code units
(`JsStr := List Nat`); JavaScript numbers used by the polynomial engine are
modelled as exact rationals; BigInt is modelled as `Int` with truncating
`%` and `/` (`Int.tmod` / `Int.tdiv`), matching JavaScript BigInt
semantics.
-/

/-- A JavaScript string, as its list of UTF-16 code units. -/
abbrev JsStr := List Nat

/-- Code units of a Lean string literal (all our literals are ASCII). -/
def jsOf (s : String) : JsStr := s.data.map Char.toNat

/-- One step of 32-bit FNV-1a: `hash ^= c; hash = Math.imul(hash, 0x01000193)`,
keeping the 32-bit bit pattern as a natural number below `2^32`. -/
def fnvStep (h c : Nat) : Nat := ((h ^^^ c) * 16777619) % 4294967296

/-- The running FNV-1a state after absorbing the code units `l` into state `h`. -/
def fnv1aState (h : Nat) (l : JsStr) : Nat := l.foldl fnvStep h

/-- Numeric value of the repository's `fnv1a` (src/lib/hash.ts): offset basis
`0x811c9dc5`, one `fnvStep` per code unit, result read with `>>> 0`. -/
def fnv1aNum (l : JsStr) : Nat := fnv1aState 2166136261 l

/-- One lowercase hex digit as a code unit (`0..9a..f`). -/
def hexDigit (d : Nat) : Nat := if d < 10 then 48 + d else 87 + d

/-- `(n >>> 0).toString(16).padStart(8, '0')`: the 8-hex-digit rendering of a
32-bit value, as code units. -/
def toHex8 (n : Nat) : JsStr :=
  [hexDigit (n / 16 ^ 7 % 16), hexDigit (n / 16 ^ 6 % 16), hexDigit (n / 16 ^ 5 % 16),
   hexDigit (n / 16 ^ 4 % 16), hexDigit (n / 16 ^ 3 % 16), hexDigit (n / 16 ^ 2 % 16),
   hexDigit (n / 16 % 16), hexDigit (n % 16)]

/-- `fnv1a` from src/lib/hash.ts, returning the 8-hex-digit string. -/
def fnv1a (l : JsStr) : JsStr := toHex8 (fnv1aNum l)

/-- `hashLeaf` (src/lib/hash.ts) in `fnv1a` mode: hash `'\x00' + data`. -/
def hashLeafF (data : JsStr) : JsStr := fnv1a (0 :: data)

/-- `hashInternal` (src/lib/hash.ts) in `fnv1a` mode: hash `'\x01' + left + right`. -/
def hashInternalF (left right : JsStr) : JsStr := fnv1a (1 :: (left ++ right))

/-! ## Merkle tree engine (src/demos/merkle/MerkleDemo.tsx) -/

/-- Sibling position tag in a Merkle proof (`'left' | 'right'`). -/
inductive SibPos where
  | left
  | right
deriving DecidableEq, Repr

/-- A Merkle tree node (src/types/merkle.ts): leaves carry their raw payload,
internal nodes carry both children (the build self-pairs an unpaired node, so
`left`/`right` are always both present on internal nodes). -/
inductive MerkleNode where
  | leaf (id : String) (hash : JsStr) (data : JsStr) (index : Nat)
  | node (id : String) (hash : JsStr) (left right : MerkleNode) (index : Nat)
deriving DecidableEq, Repr

/-- The node's `id` field. -/
def MerkleNode.id : MerkleNode → String
  | .leaf i _ _ _ => i
  | .node i _ _ _ _ => i

/-- The node's `hash` field. -/
def MerkleNode.hash : MerkleNode → JsStr
  | .leaf _ h _ _ => h
  | .node _ h _ _ _ => h

/-- The raw payload of a leaf node (`data`, absent on internal nodes). -/
def MerkleNode.dataOf : MerkleNode → Option JsStr
  | .leaf _ _ d _ => some d
  | .node _ _ _ _ _ => none

/-- A built Merkle tree: root, the ordered leaf list (after duplication),
`depth` and `nodeCount` as computed by `buildMerkleTree`. -/
structure MerkleTree where
  root : MerkleNode
  leaves : List MerkleNode
  depth : Nat
  nodeCount : Nat
deriving DecidableEq, Repr

/-- One proof step: a sibling hash and its position. -/
structure Sibling where
  hash : JsStr
  position : SibPos
deriving DecidableEq, Repr

/-- A free-standing Merkle inclusion proof (src/types/merkle.ts). -/
structure MerkleProof where
  leafIndex : Nat
  leafHash : JsStr
  siblings : List Sibling
  root : JsStr
deriving DecidableEq, Repr

/-- The leaf-hashing loop of `buildMerkleTree`: hash each entry with the leaf
hasher, skipping falsy (empty) strings; `i` is the running input index used in
the node id and `index` field. -/
def leafNodesGo (hL : JsStr → JsStr) : Nat → List JsStr → List MerkleNode
  | _, [] => []
  | i, d :: rest =>
    if d = [] then leafNodesGo hL (i + 1) rest
    else .leaf ("leaf-" ++ toString i) (hL d) d i :: leafNodesGo hL (i + 1) rest

/-- Leaf nodes of `buildMerkleTree`, before duplication. -/
def leafNodes (hL : JsStr → JsStr) (leaves : List JsStr) : List MerkleNode :=
  leafNodesGo hL 0 leaves

/-- The odd-count duplication of `buildMerkleTree`: if more than one leaf and
an odd count, append a copy of the last node under a fresh id. -/
def dupLast (nodes : List MerkleNode) : List MerkleNode :=
  if 1 < nodes.length ∧ nodes.length % 2 ≠ 0 then
    match nodes.getLast? with
    | some (.leaf _ h d _) =>
        nodes ++ [.leaf ("leaf-" ++ toString nodes.length ++ "-dup") h d nodes.length]
    | some (.node _ h l r _) =>
        nodes ++ [.node ("leaf-" ++ toString nodes.length ++ "-dup") h l r nodes.length]
    | none => nodes
  else nodes

/-- One pairing pass of the build loop: combine adjacent nodes left-to-right
(`hI left right`), self-pairing a trailing unpaired node (`right ?? left`).
`d` is the depth counter of the new level, `j` the index within it. -/
def pairUp (hI : JsStr → JsStr → JsStr) (d : Nat) : Nat → List MerkleNode → List MerkleNode
  | _, [] => []
  | j, [l] =>
      [.node ("node-" ++ toString d ++ "-" ++ toString j) (hI l.hash l.hash) l l j]
  | j, l :: r :: rest =>
      .node ("node-" ++ toString d ++ "-" ++ toString j) (hI l.hash r.hash) l r j
        :: pairUp hI d (j + 1) rest

/-- The `while (currentLevel.length > 1)` loop of `buildMerkleTree`, with an
explicit fuel argument so that the definition is structurally recursive (each
iteration at least halves the level, so `cur.length` fuel always suffices). -/
def buildLevelsGo (hI : JsStr → JsStr → JsStr) : Nat → Nat → List MerkleNode →
    Nat × List MerkleNode
  | 0, d, cur => (d, cur)
  | fuel + 1, d, cur =>
      if 1 < cur.length then
        buildLevelsGo hI fuel (d + 1) (pairUp hI (d + 1) 0 cur)
      else (d, cur)

/-- The build loop entered with enough fuel: returns the final depth counter
and the final (length ≤ 1) level. -/
def buildLevels (hI : JsStr → JsStr → JsStr) (d : Nat) (cur : List MerkleNode) :
    Nat × List MerkleNode :=
  buildLevelsGo hI cur.length d cur

/-- `buildMerkleTree` (src/demos/merkle/MerkleDemo.tsx), parametrized by the
leaf and internal hashers of the selected mode. -/
def buildMerkleTree (hL : JsStr → JsStr) (hI : JsStr → JsStr → JsStr)
    (leaves : List JsStr) : Option MerkleTree :=
  if leaves = [] then none
  else
    let nodes := dupLast (leafNodes hL leaves)
    let res := buildLevels hI 0 nodes
    match res.2 with
    | [] => none
    | root :: _ => some ⟨root, nodes, res.1, nodes.length * 2 - 1⟩

/-- `findPath` inside `generateProof`: depth-first root-to-target path,
checking the node itself, then the left subtree, then the right. -/
def findPath (target : String) : MerkleNode → Option (List MerkleNode)
  | n@(.leaf _ _ _ _) => if n.id = target then some [n] else none
  | n@(.node _ _ l r _) =>
      if n.id = target then some [n]
      else
        match findPath target l with
        | some p => some (n :: p)
        | none =>
          match findPath target r with
          | some p => some (n :: p)
          | none => none

/-- The sibling-collection loop of `generateProof`: for consecutive
`parent, current` entries of the path, record the other child's hash tagged
with its position (skipping parents without two children). -/
def collectSiblings : List MerkleNode → List Sibling
  | parent :: current :: rest =>
      (match parent with
       | .node _ _ l r _ =>
           if l.id = current.id then [⟨r.hash, .right⟩] else [⟨l.hash, .left⟩]
       | .leaf _ _ _ _ => []) ++ collectSiblings (current :: rest)
  | _ => []

/-- `generateProof` (src/demos/merkle/MerkleDemo.tsx).  The hash-mode argument
is unused in the source (`_mode`). -/
def generateProof (tree : MerkleTree) (leafIndex : Nat) : Option MerkleProof :=
  if h : leafIndex < tree.leaves.length then
    let leaf := tree.leaves.get ⟨leafIndex, h⟩
    match findPath leaf.id tree.root with
    | none => none
    | some path => some ⟨leafIndex, leaf.hash, collectSiblings path, tree.root.hash⟩
  else none

/-- `verifyProof` (src/demos/merkle/MerkleDemo.tsx): replay the internal-hash
composition from the leaf hash through the recorded siblings in list order and
compare with the claimed root. -/
def verifyProof (hI : JsStr → JsStr → JsStr) (proof : MerkleProof) : Bool :=
  decide
    ((proof.siblings.foldl
      (fun cur s =>
        match s.position with
        | .right => hI cur s.hash
        | .left => hI s.hash cur) proof.leafHash) = proof.root)

/-! ## Arithmetic primitives (src/lib/math.ts)

BigInt is modelled as `Int`; JavaScript BigInt `%` and `/` truncate toward
zero, i.e. `Int.tmod` / `Int.tdiv`.  Loops are given explicit fuel so that the
definitions stay structurally recursive (hence kernel-evaluable); the fuel is
always sufficient, which the correctness lemmas below establish. -/

/-- The square-and-multiply loop of `modPow`: while `exp > 0`, multiply
`result` by `base` when the low bit is set, then square `base` and shift
`exp`.  One fuel unit per iteration; `exp.toNat` units always suffice. -/
def modPowGo (m : Int) : Nat → Int → Int → Int → Int
  | 0, result, _, _ => result
  | fuel + 1, result, base, exp =>
      if 0 < exp then
        modPowGo m fuel
          (if exp.tmod 2 = 1 then (result * base).tmod m else result)
          ((base * base).tmod m)
          (exp.tdiv 2)
      else result

/-- `modPow` (src/lib/math.ts): fast modular exponentiation;
`mod = 1` yields `0`, the base is first normalized into `[0, mod)`. -/
def modPow (base exp mod : Int) : Int :=
  if mod = 1 then 0
  else modPowGo mod exp.toNat 1 ((base.tmod mod + mod).tmod mod) exp

/-- The record returned by `extendedGcd`. -/
structure GcdTriple where
  gcd : Int
  x : Int
  y : Int
deriving DecidableEq, Repr

/-- The recursion of `extendedGcd`, with fuel (`a.natAbs` strictly decreases
on nonnegative inputs, so `a.natAbs + 1` units suffice). -/
def extendedGcdGo : Nat → Int → Int → GcdTriple
  | 0, a, b => if a = 0 then ⟨b, 0, 1⟩ else ⟨0, 0, 0⟩
  | fuel + 1, a, b =>
      if a = 0 then ⟨b, 0, 1⟩
      else
        let r := extendedGcdGo fuel (b.tmod a) a
        ⟨r.gcd, r.y - b.tdiv a * r.x, r.x⟩

/-- `extendedGcd` (src/lib/math.ts): returns `(gcd, x, y)` with
`a*x + b*y = gcd` for the inputs actually used by the engines. -/
def extendedGcd (a b : Int) : GcdTriple := extendedGcdGo (a.natAbs + 1) a b

/-- `modInverse` (src/lib/math.ts); the `throw` on a non-unit gcd is
modelled as `none`. -/
def modInverse (a mod : Int) : Option Int :=
  let r := extendedGcd ((a.tmod mod + mod).tmod mod) mod
  if r.gcd ≠ 1 then none
  else some ((r.x.tmod mod + mod).tmod mod)

/-! ## RSA accumulator engine (src/demos/accumulator/logic.ts) -/

/-- `addElement`: `acc^prime mod n`. -/
def addElement (accValue prime n : Int) : Int := modPow accValue prime n

/-- `batchAdd`: `acc^(product of primes) mod n`, the product computed by a
left-to-right loop. -/
def batchAdd (accValue : Int) (primes : List Int) (n : Int) : Int :=
  modPow accValue (primes.foldl (· * ·) 1) n

/-- `modPowSigned` (src/demos/accumulator/logic.ts): negative exponents go
through `modInverse`; its `throw` propagates as an `Except.error`. -/
def modPowSigned (base exp mod : Int) : Except String Int :=
  if 0 ≤ exp then .ok (modPow base exp mod)
  else
    match modInverse base mod with
    | none => .error "No modular inverse exists"
    | some inv => .ok (modPow inv (-exp) mod)

/-- `computeNonMembershipWitness` (src/demos/accumulator/logic.ts): `null`
is modelled as `.ok none`, a thrown exception as `.error`. -/
def computeNonMembershipWitness (elements : List Int) (target g n : Int) :
    Except String (Option (Int × Int)) :=
  if target ∈ elements then .ok none
  else
    let product := elements.foldl (· * ·) 1
    let r := extendedGcd target product
    if r.gcd ≠ 1 then .ok none
    else
      match modPowSigned g r.x n with
      | .error e => .error e
      | .ok witness => .ok (some (witness, r.y))

/-- `verifyNonMembershipWitness` (src/demos/accumulator/logic.ts): checks
`witness^target * acc^b ≡ g (mod n)` with signed exponent `b`. -/
def verifyNonMembershipWitness (witness b target accValue g n : Int) :
    Except String Bool :=
  match modPowSigned accValue b n with
  | .error e => .error e
  | .ok s => .ok (decide ((modPow witness target n * s).tmod n = g.tmod n))

/-! ## Polynomial / KZG-simulation engine (src/lib/math.ts and
src/demos/polynomial/logic.ts)

JavaScript numbers are modelled as exact rationals.  The platform digest
`sha256` composed with `JSON.stringify` is not repository code; the KZG
functions are parametrized over that serializing hash `h`. -/

/-- `polynomialEvaluate` (src/lib/math.ts): Horner's method, highest
coefficient first (`result = result * x + coeffs[i]` from the top index
down). -/
def polynomialEvaluate (coeffs : List ℚ) (x : ℚ) : ℚ :=
  coeffs.foldr (fun c result => result * x + c) 0

/-- `evaluatePolynomial` (polynomial logic): delegates to
`polynomialEvaluate`. -/
def evaluatePolynomial (coeffs : List ℚ) (x : ℚ) : ℚ :=
  polynomialEvaluate coeffs x

/-- The synthetic-division loop of `computeQuotientPolynomial`, walking the
reversed coefficients (highest degree first) with running remainder `r`:
each coefficient except the constant one produces a quotient entry
`c + z * r`; output is highest-degree-first. -/
def synthDivGo (z : ℚ) : ℚ → List ℚ → List ℚ
  | _, [] => []
  | _, [_] => []
  | r, c :: rest => (c + z * r) :: synthDivGo z (c + z * r) rest

/-- `computeQuotientPolynomial` (polynomial logic): synthetic division of
`p(x)` by `(x - z)`.  The top coefficient seeds the quotient; a constant or
empty polynomial yields the empty quotient (the source's write to slot
`n - 2 = -1` is discarded). -/
def computeQuotientPolynomial (coeffs : List ℚ) (z : ℚ) : List ℚ :=
  match coeffs.reverse with
  | [] => []
  | [_] => []
  | c :: rest => (c :: synthDivGo z c rest).reverse

/-- `simulateKzgCommit`: hash of the serialized coefficients, with
`sha256 ∘ JSON.stringify` abstracted as `h`. -/
def simulateKzgCommit (h : List ℚ → String) (coeffs : List ℚ) : String :=
  h coeffs

/-- `simulateKzgVerify` (polynomial logic): recompute the commitment, compare
`p(z)` with the revealed value up to `1e-6`, then recompute the quotient's
hash and compare with the proof hash. -/
def simulateKzgVerify (h : List ℚ → String) (commitment : String) (z pz : ℚ)
    (proofHash : String) (coeffs : List ℚ) : Bool :=
  let recomputedCommitment := simulateKzgCommit h coeffs
  if recomputedCommitment ≠ commitment then false
  else
    let computedPz := evaluatePolynomial coeffs z
    if |computedPz - pz| > 1 / 1000000 then false
    else
      let quotientPoly := computeQuotientPolynomial coeffs z
      decide (h quotientPoly = proofHash)

/-! ## Recursive proof composition engine (src/demos/recursive/logic.ts) -/

/-- Proof status (`'pending' | 'verifying' | 'verified' | 'failed'`). -/
inductive ProofStatus where
  | pending
  | verifying
  | verified
  | failed
deriving DecidableEq, Repr

/-- The two alternating curve labels. -/
inductive Curve where
  | pallas
  | vesta
deriving DecidableEq, Repr

/-- A node of the recursion proof tree (src/types/recursive.ts); the
animation spring is presentation-only and omitted. -/
inductive ProofNode where
  | mk (id : String) (depth : Nat) (index : Nat) (curve : Curve)
      (status : ProofStatus) (label : String) (children : List ProofNode)
      (isBadProof : Bool)

/-- The node's `id` field. -/
def ProofNode.id : ProofNode → String
  | .mk i _ _ _ _ _ _ _ => i

/-- The node's `status` field. -/
def ProofNode.status : ProofNode → ProofStatus
  | .mk _ _ _ _ s _ _ _ => s

/-- The node's `children` field. -/
def ProofNode.children : ProofNode → List ProofNode
  | .mk _ _ _ _ _ _ c _ => c

/-- The node's `isBadProof` flag. -/
def ProofNode.isBadProof : ProofNode → Bool
  | .mk _ _ _ _ _ _ _ b => b

/-- The child-scanning loop of `verifyNode`: children missing from the map
are skipped; the first looked-up child that is `failed` makes the node
`failed`; otherwise the first looked-up child not yet `verified` makes it
`pending`; if the scan finishes, `verified`. -/
def verifyChildren (allNodes : List (String × ProofNode)) :
    List ProofNode → ProofStatus
  | [] => .verified
  | c :: rest =>
      match List.lookup c.id allNodes with
      | none => verifyChildren allNodes rest
      | some childNode =>
          if childNode.status = .failed then .failed
          else if childNode.status ≠ .verified then .pending
          else verifyChildren allNodes rest

/-- `verifyNode` (src/demos/recursive/logic.ts).  The `Map<string, ProofNode>`
is modelled as an association list (`Map.get` = first-match lookup). -/
def verifyNode (node : ProofNode) (allNodes : List (String × ProofNode)) :
    ProofStatus :=
  if node.isBadProof then .failed
  else if node.children.length = 0 then .verified
  else verifyChildren allNodes node.children

/-- One step of the IVC chain (src/types/recursive.ts). -/
structure IvcStep where
  id : String
  index : Nat
  curve : Curve
  status : ProofStatus
  accumulatorHash : JsStr
  inputValue : Nat
  folded : Bool
deriving DecidableEq, Repr

/-- The IVC chain: ordered steps plus the fold cursor (starts at `-1`). -/
structure IvcChain where
  steps : List IvcStep
  currentFoldIndex : Int
deriving DecidableEq, Repr

/-- `buildIvcChain` (src/demos/recursive/logic.ts), with the
`Math.floor(Math.random() * 100) + 1` draw for step `i` abstracted as
`inputs i`. -/
def buildIvcChain (inputs : Nat → Nat) (length : Nat) : IvcChain :=
  { steps :=
      (List.range length).map fun i =>
        { id := "ivc_step_" ++ toString i
          index := i
          curve := if i % 2 = 0 then .pallas else .vesta
          status := .pending
          accumulatorHash :=
            fnv1a (jsOf ("step_" ++ toString i ++ "_input_" ++ toString (inputs i)))
          inputValue := inputs i
          folded := false }
    currentFoldIndex := -1 }

/-- JavaScript array indexing `steps[i]` for a possibly negative index. -/
def jsGet (steps : List IvcStep) (i : Int) : Option IvcStep :=
  if 0 ≤ i then steps.get? i.toNat else none

/-- `foldIvcStep` (src/demos/recursive/logic.ts): fold the next step, and for
a step after the first recompute its accumulator hash from the previous
step's hash and this step's input value. -/
def foldIvcStep (chain : IvcChain) : IvcChain :=
  let nextIndex : Int := chain.currentFoldIndex + 1
  if (chain.steps.length : Int) ≤ nextIndex then chain
  else
    match jsGet chain.steps nextIndex with
    | none => chain
    | some currentStep =>
        let ni := nextIndex.toNat
        let steps1 :=
          chain.steps.set ni { currentStep with folded := true, status := .verified }
        let steps2 :=
          if 0 < nextIndex then
            let prevHash :=
              ((jsGet steps1 (nextIndex - 1)).map IvcStep.accumulatorHash).getD []
            let currentInput := ((jsGet steps1 nextIndex).map IvcStep.inputValue).getD 0
            match jsGet steps1 nextIndex with
            | some st =>
                steps1.set ni
                  { st with
                    accumulatorHash :=
                      fnv1a (prevHash ++ jsOf "_" ++ jsOf (toString currentInput)) }
            | none => steps1
          else steps1
        ⟨steps2, nextIndex⟩

/-! ## Claim-support definitions -/

/-- Helper for the quotient-polynomial proofs: the same synthetic-division
walk as `synthDivGo` but consuming every remaining coefficient (no
constant-term cutoff). -/
def synthAll (z : ℚ) : ℚ → List ℚ → List ℚ
  | _, [] => []
  | r, c :: rest => (c + z * r) :: synthAll z (c + z * r) rest

/-- Two strings differing in exactly one code unit (same length, same
characters everywhere except one position). -/
def DiffersAtOneChar (l1 l2 : JsStr) : Prop :=
  ∃ pre c1 c2 suf, c1 ≠ c2 ∧ l1 = pre ++ c1 :: suf ∧ l2 = pre ++ c2 :: suf

/-- All code units of the string are 32-bit-bounded (true of every JavaScript
string, whose units are 16-bit). -/
def WfChars (l : JsStr) : Prop := ∀ c ∈ l, c < 4294967296

/-- A concrete free-standing proof accepted by `verifyProof` in `fnv1a` mode
(root chosen as the replay result). -/
def tamperedDemoBase : MerkleProof :=
  { leafIndex := 0
    leafHash := jsOf "bc17700ef10"
    siblings := [⟨[], .right⟩, ⟨[], .right⟩]
    root := jsOf "fbe9b65c" }

/-- `tamperedDemoBase` with the last character of the leaf hash changed from
`'0'` to `'1'`. -/
def tamperedDemoChanged : MerkleProof :=
  { tamperedDemoBase with leafHash := jsOf "bc17700ef11" }

/-- A child in status `pending` (concrete instance for the `verifyNode`
analysis). -/
def childPendingEx : ProofNode :=
  .mk "node_1_0" 1 0 .vesta .pending "pi_1_0" [] false

/-- A child in status `failed` (concrete instance for the `verifyNode`
analysis). -/
def childFailedEx : ProofNode :=
  .mk "node_1_1" 1 1 .vesta .failed "pi_1_1" [] false

/-- A parent whose first child is `pending` and second child `failed`. -/
def parentEx : ProofNode :=
  .mk "node_0_0" 0 0 .pallas .pending "pi_0_0" [childPendingEx, childFailedEx] false

/-- The node map for `parentEx` and its children. -/
def nodesEx : List (String × ProofNode) :=
  [("node_1_0", childPendingEx), ("node_1_1", childFailedEx), ("node_0_0", parentEx)]

/-- Declarative reading of the `verifyNode` scan: the first child resolved in
the map whose status is not `verified` decides the result (`failed` if it
failed, `pending` otherwise); if every resolved child is `verified`, the node
is `verified`. -/
def verifyNodeSpec (node : ProofNode) (allNodes : List (String × ProofNode)) :
    ProofStatus :=
  if node.isBadProof then .failed
  else if node.children.length = 0 then .verified
  else
    match (node.children.filterMap fun c => List.lookup c.id allNodes).find?
        (fun c => decide (c.status ≠ .verified)) with
    | none => .verified
    | some c => if c.status = .failed then .failed else .pending

/-- The leaf payloads `buildMerkleTree` keeps: the non-empty entries, with the
last one repeated when there are more than one and an odd count. -/
def expectedLeafData (leaves : List JsStr) : List JsStr :=
  let f := leaves.filter fun d => decide (d ≠ [])
  if 1 < f.length ∧ f.length % 2 ≠ 0 then f ++ f.getLast?.toList else f

/-- The accumulator hash of step `j` once folded: step 0 keeps its initial
hash, step `j + 1` hashes the previous folded hash with its own input. -/
def ivcExpectedHash (inputs : Nat → Nat) : Nat → JsStr
  | 0 => fnv1a (jsOf ("step_" ++ toString (0 : Nat) ++ "_input_" ++ toString (inputs 0)))
  | j + 1 =>
      fnv1a (ivcExpectedHash inputs j ++ jsOf "_" ++ jsOf (toString (inputs (j + 1))))

/-- The chain state after `k` folds of `buildIvcChain inputs length`: the
first `min k length` steps are folded and `verified` with the running
accumulator hashes, the rest are untouched, and the cursor sits at
`min k length - 1`. -/
def ivcChainAfter (inputs : Nat → Nat) (length k : Nat) : IvcChain :=
  { steps :=
      (List.range length).map fun i =>
        { id := "ivc_step_" ++ toString i
          index := i
          curve := if i % 2 = 0 then .pallas else .vesta
          status := if i < k then .verified else .pending
          accumulatorHash :=
            if i < k then ivcExpectedHash inputs i
            else fnv1a (jsOf ("step_" ++ toString i ++ "_input_" ++ toString (inputs i)))
          inputValue := inputs i
          folded := decide (i < k) }
    currentFoldIndex := (min k length : Int) - 1 }

/-! ## Merkle build-loop lemmas -/

theorem pairUp_length (hI : JsStr → JsStr → JsStr) (d : Nat) :
    ∀ (j : Nat) (l : List MerkleNode), (pairUp hI d j l).length = (l.length + 1) / 2
  | _, [] => rfl
  | _, [_] => by simp [pairUp]
  | j, _ :: _ :: rest => by
      simp only [pairUp, List.length_cons, pairUp_length hI d (j + 1) rest]
      omega

theorem buildLevelsGo_congr (hI : JsStr → JsStr → JsStr) :
    ∀ (f1 f2 d : Nat) (cur : List MerkleNode), cur.length ≤ f1 → cur.length ≤ f2 →
      buildLevelsGo hI f1 d cur = buildLevelsGo hI f2 d cur := by
  intro f1
  induction f1 with
  | zero =>
      intro f2 d cur h1 _
      have hc : cur = [] := List.length_eq_zero.mp (Nat.le_zero.mp h1)
      subst hc
      cases f2 <;> simp [buildLevelsGo]
  | succ f1 ih =>
      intro f2 d cur h1 h2
      by_cases hlen : 1 < cur.length
      · have hf2 : f2 = f2 - 1 + 1 := by omega
        rw [hf2]
        simp only [buildLevelsGo, if_pos hlen]
        apply ih
        · rw [pairUp_length]; omega
        · rw [pairUp_length]; omega
      · cases f2 <;> simp [buildLevelsGo, if_neg hlen]

/-- The one-step unfolding of the build loop. -/
theorem buildLevels_eq (hI : JsStr → JsStr → JsStr) (d : Nat) (cur : List MerkleNode) :
    buildLevels hI d cur =
      if 1 < cur.length then buildLevels hI (d + 1) (pairUp hI (d + 1) 0 cur)
      else (d, cur) := by
  by_cases hlen : 1 < cur.length
  · rw [if_pos hlen]
    unfold buildLevels
    have hc : cur.length = cur.length - 1 + 1 := by omega
    rw [hc]
    simp only [buildLevelsGo, if_pos hlen]
    apply buildLevelsGo_congr
    · rw [pairUp_length]; omega
    · exact Nat.le_refl _
  · rw [if_neg hlen]
    unfold buildLevels
    cases hc : cur.length with
    | zero => simp [buildLevelsGo]
    | succ n => simp [buildLevelsGo, if_neg hlen]

/-! ## C1: Merkle build / generateProof / verifyProof round trip -/

/-- C1: the claim that for every non-empty leaf list and every hash mode the
`buildMerkleTree` → `generateProof` → `verifyProof` round trip yields `true`
for every valid leaf index FAILS on the code: for leaves
`["a","b","c","d"]` in fast-hash mode and leaf index `0`, the build and the
proof both succeed but `verifyProof` returns `false` — `generateProof`
records siblings in root-to-leaf order while `verifyProof` replays them as if
they were leaf-to-root (contradicting the source comment "Walk from leaf to
root" and the repository's merkle tests, which assert a `true` round trip on
this very input). -/
theorem claim_C1_roundtrip_fails_on_abcd :
    ((buildMerkleTree hashLeafF hashInternalF
        [jsOf "a", jsOf "b", jsOf "c", jsOf "d"]).bind
      fun t => (generateProof t 0).map (verifyProof hashInternalF)) = some false := by
  set_option maxRecDepth 10000 in decide

/-! ## C8: tamper detection for accepted Merkle proofs -/

/-- C8 counterexample: an accepted `fnv1a`-mode proof (two siblings) whose
leaf hash can be changed in a single character while `verifyProof` still
returns `true` — the two leaf hashes collide through the replay because the
fold of the second sibling maps both intermediate 8-hex-digit strings to the
same FNV-1a value.  This refutes the claim as stated. -/
theorem claim_C8_counterexample :
    verifyProof hashInternalF tamperedDemoBase = true ∧
    DiffersAtOneChar tamperedDemoBase.leafHash tamperedDemoChanged.leafHash ∧
    tamperedDemoChanged.siblings = tamperedDemoBase.siblings ∧
    tamperedDemoChanged.root = tamperedDemoBase.root ∧
    verifyProof hashInternalF tamperedDemoChanged = true := by
  refine ⟨by decide, ⟨jsOf "bc17700ef1", 48, 49, [], ?_, ?_, ?_⟩, by decide, by decide, by decide⟩
  · decide
  · decide
  · decide

/-! ## C2: verifyNode status rules -/

/-- C2 counterexample: a non-flagged parent whose first child is `pending`
and whose second child is `failed` (both resolved in the node map) is
reported `pending` by `verifyNode`, not `failed` as the claim demands — the
scan returns at the first non-`verified` child, so an earlier `pending`
child masks a later `failed` one. -/
theorem claim_C2_counterexample :
    verifyNode parentEx nodesEx = ProofStatus.pending ∧
    parentEx.isBadProof = false ∧
    childFailedEx ∈ parentEx.children ∧
    (List.lookup childFailedEx.id nodesEx).map ProofNode.status =
      some ProofStatus.failed := by
  refine ⟨by decide, by decide, ?_, by decide⟩
  exact List.Mem.tail _ (List.Mem.head _)

theorem verifyChildren_spec (m : List (String × ProofNode)) :
    ∀ cs : List ProofNode,
      verifyChildren m cs =
        match (cs.filterMap fun c => List.lookup c.id m).find?
            (fun c => decide (c.status ≠ .verified)) with
        | none => .verified
        | some c => if c.status = .failed then .failed else .pending := by
  intro cs
  induction cs with
  | nil => rfl
  | cons c rest ih =>
      simp only [verifyChildren, List.filterMap_cons]
      cases hl : List.lookup c.id m with
      | none => exact ih
      | some cn =>
          by_cases hf : cn.status = .failed
          · simp [List.find?, hf]
          · by_cases hv : cn.status = .verified
            · simp only [if_neg hf, hv, ne_eq, not_true_eq_false, decide_False,
                if_false, List.find?]
              simpa [hv] using ih
            · simp [List.find?, hf, hv]

/-- C2 (amended): `verifyNode` returns `failed` for a flagged node and
`verified` for a childless one; otherwise it scans the children in list
order, skipping children missing from the node map, and the first resolved
child whose status is not `verified` decides the result — `failed` if that
child is `failed`, `pending` otherwise; when every resolved child is
`verified`, the node is `verified`.  (The original claim's rule "`failed`
whenever at least one child failed" holds only when no earlier child is
still unsettled.) -/
theorem claim_C2_amended (node : ProofNode) (allNodes : List (String × ProofNode)) :
    verifyNode node allNodes = verifyNodeSpec node allNodes := by
  unfold verifyNode verifyNodeSpec
  by_cases hb : node.isBadProof
  · simp [hb]
  · by_cases hc : node.children.length = 0
    · simp [hb, hc]
    · simp only [hb, if_false, hc, Bool.false_eq_true]
      exact verifyChildren_spec allNodes node.children

/-! ## C10: foldIvcStep frame property -/

/-- C10: `foldIvcStep` is a pure function of the chain (the embedding keeps
the argument untouched by construction), the returned chain has the same
number of steps, every step at an index other than `currentFoldIndex + 1` is
returned unchanged, and in the terminal case (`currentFoldIndex + 1` not
below the step count) the chain is returned as is. -/
theorem claim_C10_fold_frame (chain : IvcChain) :
    (foldIvcStep chain).steps.length = chain.steps.length ∧
    (∀ j : Nat, (j : Int) ≠ chain.currentFoldIndex + 1 →
      (foldIvcStep chain).steps[j]? = chain.steps[j]?) ∧
    ((chain.steps.length : Int) ≤ chain.currentFoldIndex + 1 →
      foldIvcStep chain = chain) := by
  unfold foldIvcStep
  by_cases hterm : (chain.steps.length : Int) ≤ chain.currentFoldIndex + 1
  · simp [hterm]
  · simp only [hterm, if_false]
    cases hj : jsGet chain.steps (chain.currentFoldIndex + 1) with
    | none => simp
    | some st =>
        have hpos : 0 ≤ chain.currentFoldIndex + 1 := by
          by_contra hneg
          rw [jsGet, if_neg hneg] at hj
          exact Option.noConfusion hj
        have hni : ((chain.currentFoldIndex + 1).toNat : Int) = chain.currentFoldIndex + 1 :=
          Int.toNat_of_nonneg hpos
        constructor
        · by_cases h0 : 0 < chain.currentFoldIndex + 1 <;>
            cases hg : jsGet (chain.steps.set (chain.currentFoldIndex + 1).toNat
              { st with folded := true, status := .verified }) (chain.currentFoldIndex + 1) <;>
            simp [h0, hg]
        constructor
        · intro j hjne
          have hne : (chain.currentFoldIndex + 1).toNat ≠ j := by
            intro hcontra
            exact hjne (by rw [← hcontra, hni])
          by_cases h0 : 0 < chain.currentFoldIndex + 1 <;>
            cases hg : jsGet (chain.steps.set (chain.currentFoldIndex + 1).toNat
              { st with folded := true, status := .verified }) (chain.currentFoldIndex + 1) <;>
            simp [h0, hg, List.getElem?_set_ne hne]
        · intro hcontra
          exact hcontra.elim

/-! ## C6: KZG verification accepts the honest triple, rejects corrupted ones -/

/-- C6: with the serializing hash abstracted as `h`, `simulateKzgVerify`
accepts the honestly computed commitment / revealed value / proof hash, and
rejects whenever exactly one of them is replaced (commitment by a different
string, revealed value moved by more than `1e-6`, proof hash by a different
string) while the other arguments are held fixed. -/
theorem claim_C6_verify_rejects_corruption (h : List ℚ → String) (coeffs : List ℚ) (z : ℚ) :
    simulateKzgVerify h (simulateKzgCommit h coeffs) z (evaluatePolynomial coeffs z)
      (h (computeQuotientPolynomial coeffs z)) coeffs = true ∧
    (∀ c2, c2 ≠ simulateKzgCommit h coeffs →
      simulateKzgVerify h c2 z (evaluatePolynomial coeffs z)
        (h (computeQuotientPolynomial coeffs z)) coeffs = false) ∧
    (∀ pz2, |pz2 - evaluatePolynomial coeffs z| > 1 / 1000000 →
      simulateKzgVerify h (simulateKzgCommit h coeffs) z pz2
        (h (computeQuotientPolynomial coeffs z)) coeffs = false) ∧
    (∀ ph2, ph2 ≠ h (computeQuotientPolynomial coeffs z) →
      simulateKzgVerify h (simulateKzgCommit h coeffs) z (evaluatePolynomial coeffs z)
        ph2 coeffs = false) := by
  refine ⟨?_, ?_, ?_, ?_⟩
  · simp [simulateKzgVerify, simulateKzgCommit, abs_nonpos_iff]
  · intro c2 hc2
    simp only [simulateKzgVerify, simulateKzgCommit]
    rw [if_pos (fun he => hc2 he.symm)]
  · intro pz2 hpz2
    rw [abs_sub_comm] at hpz2
    simp [simulateKzgVerify, simulateKzgCommit]
    rwa [one_div] at hpz2
  · intro ph2 hph2
    simp [simulateKzgVerify, simulateKzgCommit, abs_nonpos_iff, Ne.symm hph2]

/-- Witness for C6 at a concrete hash, polynomial and corrupted arguments. -/
theorem claim_C6_witness :
    simulateKzgVerify (fun _ => "h") "h" 3 (evaluatePolynomial [1, 2] 3) "h" [1, 2] = true ∧
    simulateKzgVerify (fun _ => "h") "x" 3 (evaluatePolynomial [1, 2] 3) "h" [1, 2] = false ∧
    simulateKzgVerify (fun _ => "h") "h" 3 (evaluatePolynomial [1, 2] 3 + 1) "h" [1, 2] = false ∧
    simulateKzgVerify (fun _ => "h") "h" 3 (evaluatePolynomial [1, 2] 3) "y" [1, 2] = false := by
  obtain ⟨ha, hb, hc, hd⟩ := claim_C6_verify_rejects_corruption (fun _ => "h") [1, 2] 3
  exact ⟨ha, hb "x" (by decide), hc _ (by norm_num), hd "y" (by decide)⟩

/-- Witness for C10 on a concrete two-step chain and on a terminal chain. -/
theorem claim_C10_witness :
    (foldIvcStep (buildIvcChain (fun _ => 5) 2)).steps.length =
      (buildIvcChain (fun _ => 5) 2).steps.length ∧
    (foldIvcStep (buildIvcChain (fun _ => 5) 2)).steps[1]? =
      (buildIvcChain (fun _ => 5) 2).steps[1]? ∧
    foldIvcStep { steps := [], currentFoldIndex := -1 } =
      { steps := [], currentFoldIndex := -1 } := by
  obtain ⟨h1, h2, _⟩ := claim_C10_fold_frame (buildIvcChain (fun _ => 5) 2)
  obtain ⟨_, _, h3⟩ := claim_C10_fold_frame { steps := [], currentFoldIndex := -1 }
  exact ⟨h1, h2 1 (by decide), h3 (by decide)⟩

/-! ## C5: synthetic division of p(x) by (x - z) -/

theorem polynomialEvaluate_cons (c : ℚ) (l : List ℚ) (x : ℚ) :
    polynomialEvaluate (c :: l) x = polynomialEvaluate l x * x + c := rfl

/-- Appending one more (constant-position) coefficient makes the division
loop consume every element of the earlier list. -/
theorem synthDivGo_append_last (z : ℚ) :
    ∀ (ds : List ℚ) (r c : ℚ), synthDivGo z r (ds ++ [c]) = synthAll z r ds
  | [], _, _ => rfl
  | [d], r, c => by simp [synthDivGo, synthAll]
  | d :: e :: ds, r, c =>
      congrArg (List.cons (d + z * r)) (synthDivGo_append_last z (e :: ds) (d + z * r) c)

theorem synthAll_append (z : ℚ) :
    ∀ (l1 l2 : List ℚ) (r : ℚ),
      synthAll z r (l1 ++ l2) =
        synthAll z r l1 ++ synthAll z (l1.foldl (fun s c => c + z * s) r) l2
  | [], _, _ => rfl
  | d :: l1, l2, r =>
      congrArg (List.cons (d + z * r)) (synthAll_append z l1 l2 (d + z * r))

theorem polynomialEvaluate_append_pair (z : ℚ) :
    ∀ (l : List ℚ) (e r : ℚ),
      polynomialEvaluate (l ++ [e + z * r]) z = polynomialEvaluate (l ++ [e, r]) z
  | [], e, r => by
      simp [polynomialEvaluate]
      ring
  | c :: l, e, r => by
      simp only [List.cons_append, polynomialEvaluate_cons,
        polynomialEvaluate_append_pair z l e r]

/-- The division loop's running remainder is the Horner evaluation of the
coefficients consumed so far (reversed back to low-first order, seeded with
the start value). -/
theorem foldl_remainder_eval (z : ℚ) :
    ∀ (es : List ℚ) (r : ℚ),
      es.foldl (fun s c => c + z * s) r = polynomialEvaluate (es.reverse ++ [r]) z
  | [], r => by simp [polynomialEvaluate]
  | e :: es, r => by
      simp only [List.foldl_cons, List.reverse_cons, List.append_assoc,
        List.singleton_append]
      rw [foldl_remainder_eval z es (e + z * r), polynomialEvaluate_append_pair]

/-- The head-recursive characterization of the source's quotient: for a
non-constant polynomial `c0 :: p`, the quotient is the evaluation of `p` at
`z` followed by the quotient of `p`. -/
theorem computeQuotientPolynomial_cons (z c0 : ℚ) (p : List ℚ) (hp : p ≠ []) :
    computeQuotientPolynomial (c0 :: p) z =
      polynomialEvaluate p z :: computeQuotientPolynomial p z := by
  obtain ⟨d, ds, hr⟩ : ∃ d ds, p.reverse = d :: ds := by
    cases hrv : p.reverse with
    | nil => exact absurd (by simpa using congrArg List.reverse hrv) hp
    | cons d ds => exact ⟨d, ds, rfl⟩
  have hpv : p = ds.reverse ++ [d] := by
    have h2 := congrArg List.reverse hr
    simpa using h2
  cases hds : ds with
  | nil =>
      have hp1 : p = [d] := by rw [hpv, hds]; rfl
      subst hp1
      have e1 : computeQuotientPolynomial [c0, d] z = [d] := rfl
      have e2 : computeQuotientPolynomial [d] z = [] := rfl
      rw [e1, e2]
      have e3 : polynomialEvaluate [d] z = d := by
        simp [polynomialEvaluate]
      rw [e3]
  | cons e es =>
      rcases List.eq_nil_or_concat ds with h0 | ⟨fs, e0, hcc⟩
      · rw [hds] at h0; exact List.noConfusion h0
      have hconcat : ds = fs ++ [e0] := by rw [hcc]; exact List.concat_eq_append fs e0
      have hrev : (c0 :: p).reverse = d :: (ds ++ [c0]) := by
        rw [List.reverse_cons, hr]; rfl
      have hq1 : computeQuotientPolynomial (c0 :: p) z =
          (d :: synthDivGo z d (ds ++ [c0])).reverse := by
        unfold computeQuotientPolynomial
        rw [hrev, hds]
        rfl
      have hq2 : computeQuotientPolynomial p z = (d :: synthDivGo z d ds).reverse := by
        unfold computeQuotientPolynomial
        rw [hr, hds]
      rw [hconcat] at hq1 hq2
      rw [synthDivGo_append_last] at hq2
      have hq1b : computeQuotientPolynomial (c0 :: p) z =
          (d :: synthAll z d (fs ++ [e0])).reverse := by
        rw [hq1]
        rw [show (fs ++ [e0]) ++ [c0] = fs ++ [e0] ++ [c0] from rfl]
        rw [synthDivGo_append_last]
      rw [hq1b, hq2, synthAll_append]
      have hsingle : synthAll z (fs.foldl (fun s c => c + z * s) d) [e0] =
          [e0 + z * fs.foldl (fun s c => c + z * s) d] := rfl
      rw [hsingle]
      have hpval : polynomialEvaluate p z =
          e0 + z * fs.foldl (fun s c => c + z * s) d := by
        rw [foldl_remainder_eval]
        have hp2 : p = e0 :: (fs.reverse ++ [d]) := by
          rw [hpv, hconcat]
          simp
        rw [hp2, polynomialEvaluate_cons]
        ring
      rw [hpval]
      simp

/-- C5 counterexample: for the empty coefficient list the quotient is also
empty, so it does not have exactly one coefficient fewer than the input
(`0 + 1 ≠ 0`); the claim quantifies over every coefficient list. -/
theorem claim_C5_counterexample :
    computeQuotientPolynomial ([] : List ℚ) 0 = [] ∧
    ¬((computeQuotientPolynomial ([] : List ℚ) 0).length + 1 = ([] : List ℚ).length) :=
  ⟨rfl, by decide⟩

/-- C5 (amended): the synthetic-division identity
`p(x) = (x - z) * q(x) + p(z)` holds exactly (the rational model of float
arithmetic) at every point for every coefficient list, and for every
NON-EMPTY coefficient list the quotient has exactly one coefficient fewer
than `p`; the empty list (where the quotient is also empty) is the only
exception to the length property. -/
theorem claim_C5_quotient_identity (p : List ℚ) (z : ℚ) :
    (∀ x : ℚ, polynomialEvaluate p x =
      (x - z) * polynomialEvaluate (computeQuotientPolynomial p z) x +
        polynomialEvaluate p z) ∧
    (p ≠ [] → (computeQuotientPolynomial p z).length + 1 = p.length) := by
  induction p with
  | nil =>
      constructor
      · intro x
        simp [polynomialEvaluate, computeQuotientPolynomial]
      · intro h
        exact absurd rfl h
  | cons c tl ih =>
      by_cases htl : tl = []
      · subst htl
        constructor
        · intro x
          have e2 : computeQuotientPolynomial [c] z = [] := rfl
          rw [e2]
          simp [polynomialEvaluate]
        · intro _
          rfl
      · rw [computeQuotientPolynomial_cons z c tl htl]
        constructor
        · intro x
          simp only [polynomialEvaluate_cons]
          linear_combination x * ih.1 x
        · intro _
          have h2 := ih.2 htl
          simp only [List.length_cons]
          omega

/-- Witness for C5 on the concrete polynomial `1 + 2x + 3x^2`, challenge
`z = 2`, sample point `x = 5`. -/
theorem claim_C5_witness :
    polynomialEvaluate [(1 : ℚ), 2, 3] 5 =
      (5 - 2) * polynomialEvaluate (computeQuotientPolynomial [(1 : ℚ), 2, 3] 2) 5 +
        polynomialEvaluate [(1 : ℚ), 2, 3] 2 ∧
    (computeQuotientPolynomial [(1 : ℚ), 2, 3] 2).length + 1 =
      [(1 : ℚ), 2, 3].length := by
  obtain ⟨h1, h2⟩ := claim_C5_quotient_identity [(1 : ℚ), 2, 3] 2
  exact ⟨h1 5, h2 (by decide)⟩

/-! ## Truncating-mod toolkit and modPow correctness -/

theorem tmod_neg_left (a b : Int) : (-a).tmod b = -(a.tmod b) := by
  rw [Int.tmod_def, Int.tmod_def, Int.neg_tdiv]
  ring

theorem neg_lt_tmod (b m : Int) (hm : 0 < m) : -m < b.tmod m := by
  rcases le_or_lt 0 b with hb | hb
  · exact lt_of_lt_of_le (by omega) (Int.tmod_nonneg m hb)
  · have h1 : b.tmod m = -((-b).tmod m) := by
      rw [← tmod_neg_left, neg_neg]
    have h2 : (-b).tmod m < m := Int.tmod_lt_of_pos (-b) hm
    omega

theorem tmod_modEq_self (b m : Int) : b.tmod m % m = b % m := by
  rw [Int.tmod_def, sub_eq_add_neg, mul_comm, ← neg_mul, Int.add_mul_emod_self]

/-- The source's `((b % m) + m) % m` normalization equals the euclidean
remainder. -/
theorem tmod_norm (b m : Int) (hm : 0 < m) : (b.tmod m + m).tmod m = b % m := by
  have hx : 0 ≤ b.tmod m + m := by
    have := neg_lt_tmod b m hm
    omega
  rw [Int.tmod_eq_emod hx (le_of_lt hm)]
  have h1 : (b.tmod m + m) % m = b.tmod m % m := by
    have : b.tmod m + m = b.tmod m + 1 * m := by ring
    rw [this, Int.add_mul_emod_self]
  rw [h1, tmod_modEq_self]

theorem pow_emod_left (a n : Int) (k : Nat) : (a % n) ^ k % n = a ^ k % n := by
  induction k with
  | zero => rfl
  | succ k ih =>
      rw [pow_succ, pow_succ, Int.mul_emod, ih, Int.emod_emod_of_dvd _ (dvd_refl n),
        ← Int.mul_emod]

theorem emod_mul_left_emod (x y n : Int) : (x % n) * y % n = x * y % n := by
  rw [Int.mul_emod, Int.emod_emod_of_dvd _ (dvd_refl n), ← Int.mul_emod]

theorem emod_mul_right_emod (x y n : Int) : x * (y % n) % n = x * y % n := by
  rw [mul_comm, emod_mul_left_emod, mul_comm]

theorem mul_pow_emod_right (x y : Int) (k : Nat) (n : Int) :
    x * ((y % n) ^ k) % n = x * y ^ k % n := by
  rw [Int.mul_emod, pow_emod_left, ← Int.mul_emod]

theorem modPowGo_eq (m : Int) (hm : 1 < m) :
    ∀ (f : Nat) (r b e : Int), 0 ≤ r → r < m → 0 ≤ b → 0 ≤ e → e.toNat < 2 ^ f →
      modPowGo m f r b e = (r * b ^ e.toNat) % m := by
  intro f
  induction f with
  | zero =>
      intro r b e hr hrm hb he hef
      have he0 : e = 0 := by omega
      subst he0
      simp [modPowGo, Int.emod_eq_of_lt hr hrm]
  | succ f ih =>
      intro r b e hr hrm hb he hef
      by_cases hpos : 0 < e
      · simp only [modPowGo, if_pos hpos]
        have he2 : e.tdiv 2 = e / 2 := Int.tdiv_eq_ediv he (by omega)
        have hb2 : (0 : Int) ≤ (b * b).tmod m := Int.tmod_nonneg m (mul_nonneg hb hb)
        have htm : (b * b).tmod m = (b * b) % m :=
          Int.tmod_eq_emod (mul_nonneg hb hb) (by omega)
        have he2nn : 0 ≤ e / 2 := Int.ediv_nonneg he (by omega)
        have hlt2 : (e / 2).toNat < 2 ^ f := by omega
        have hparity : e.tmod 2 = e % 2 := Int.tmod_eq_emod he (by omega)
        by_cases hodd : e.tmod 2 = 1
        · rw [if_pos hodd]
          have hrb : (0 : Int) ≤ (r * b).tmod m :=
            Int.tmod_nonneg m (mul_nonneg hr hb)
          have hrbm : (r * b).tmod m < m := by
            rw [Int.tmod_eq_emod (mul_nonneg hr hb) (by omega)]
            exact Int.emod_lt_of_pos _ (by omega)
          rw [he2, ih ((r * b).tmod m) ((b * b).tmod m) (e / 2) hrb hrbm hb2 he2nn hlt2]
          rw [Int.tmod_eq_emod (mul_nonneg hr hb) (by omega), htm]
          have hen : e.toNat = 2 * (e / 2).toNat + 1 := by omega
          rw [hen, mul_pow_emod_right, emod_mul_left_emod]
          congr 1
          ring
        · rw [if_neg hodd]
          have hrm2 : r < m := hrm
          rw [he2, ih r ((b * b).tmod m) (e / 2) hr hrm2 hb2 he2nn hlt2, htm]
          have hen : e.toNat = 2 * (e / 2).toNat := by omega
          rw [hen, mul_pow_emod_right]
          congr 1
          ring
      · have he0 : e = 0 := by omega
        subst he0
        simp [modPowGo, Int.emod_eq_of_lt hr hrm]

/-- `modPow b e m` computes `b^e mod m` (euclidean remainder) for every
nonnegative exponent and positive modulus. -/
theorem modPow_eq (b e m : Int) (hm : 0 < m) (he : 0 ≤ e) :
    modPow b e m = b ^ e.toNat % m := by
  unfold modPow
  by_cases hm1 : m = 1
  · subst hm1
    simp
  · have hm2 : 1 < m := by omega
    rw [if_neg hm1, tmod_norm b m hm]
    rw [modPowGo_eq m hm2 e.toNat 1 (b % m) e (by omega) (by omega)
      (Int.emod_nonneg b (by omega)) he (Nat.lt_two_pow _)]
    rw [one_mul, pow_emod_left]

/-! ## C4: batchAdd versus sequential addElement -/

theorem toNat_mul_of_nonneg {a b : Int} (ha : 0 ≤ a) (hb : 0 ≤ b) :
    (a * b).toNat = a.toNat * b.toNat := by
  have h : ((a * b).toNat : Int) = ((a.toNat * b.toNat : Nat) : Int) := by
    rw [Int.toNat_of_nonneg (mul_nonneg ha hb)]
    push_cast
    rw [Int.toNat_of_nonneg ha, Int.toNat_of_nonneg hb]
  exact_mod_cast h

theorem foldl_mul_shift : ∀ (l : List Int) (a : Int),
    l.foldl (· * ·) a = a * l.foldl (· * ·) 1
  | [], a => (mul_one a).symm
  | x :: xs, a => by
      simp only [List.foldl_cons]
      rw [foldl_mul_shift xs (a * x), foldl_mul_shift xs (1 * x)]
      ring

theorem foldl_mul_nonneg : ∀ (l : List Int), (∀ p ∈ l, 0 ≤ p) →
    0 ≤ l.foldl (· * ·) 1
  | [], _ => by simp
  | x :: xs, h => by
      simp only [List.foldl_cons]
      rw [foldl_mul_shift]
      exact mul_nonneg (by simpa using h x (by simp))
        (foldl_mul_nonneg xs fun p hp => h p (by simp [hp]))

/-- The source's running product equals `List.prod`. -/
theorem foldl_mul_eq_prod (l : List Int) : l.foldl (· * ·) 1 = l.prod :=
  List.prod_eq_foldl.symm

/-- Folding `addElement` over a nonempty exponent list computes one big
modular power (modulus above 1, nonnegative exponents). -/
theorem foldl_addElement_eq (n : Int) (hn : 1 < n) :
    ∀ (ps : List Int) (acc : Int), ps ≠ [] → (∀ p ∈ ps, 0 ≤ p) →
      ps.foldl (fun a p => addElement a p n) acc =
        acc ^ (ps.foldl (· * ·) 1).toNat % n
  | [], _, h, _ => absurd rfl h
  | [p], acc, _, hpos => by
      simp only [List.foldl_cons, List.foldl_nil, addElement]
      rw [modPow_eq acc p n (by omega) (hpos p (by simp))]
      simp
  | p :: q :: qs, acc, _, hpos => by
      have hq : (q :: qs) ≠ [] := by simp
      have hposq : ∀ x ∈ q :: qs, 0 ≤ x := fun x hx => hpos x (by simp [hx])
      have hp0 : 0 ≤ p := hpos p (by simp)
      have hQnn : 0 ≤ (q :: qs).foldl (· * ·) 1 := foldl_mul_nonneg _ hposq
      have lhs1 : (p :: q :: qs).foldl (fun a x => addElement a x n) acc =
          (q :: qs).foldl (fun a x => addElement a x n) (addElement acc p n) := rfl
      rw [lhs1, foldl_addElement_eq n hn (q :: qs) (addElement acc p n) hq hposq]
      rw [addElement, modPow_eq acc p n (by omega) hp0]
      rw [pow_emod_left, ← pow_mul]
      congr 1
      have hfold : (p :: q :: qs).foldl (· * ·) 1 = p * (q :: qs).foldl (· * ·) 1 := by
        have h1 : (p :: q :: qs).foldl (· * ·) 1 =
            (q :: qs).foldl (· * ·) (1 * p) := rfl
        rw [h1, foldl_mul_shift (q :: qs) (1 * p), one_mul]
      rw [hfold, toNat_mul_of_nonneg hp0 hQnn]

/-- Folding `addElement` with modulus 1 over a nonempty list yields 0. -/
theorem foldl_addElement_one : ∀ (ps : List Int) (acc : Int), ps ≠ [] →
    ps.foldl (fun a p => addElement a p 1) acc = 0
  | [], _, h => absurd rfl h
  | [p], acc, _ => by simp [addElement, modPow]
  | p :: q :: qs, acc, _ =>
      foldl_addElement_one (q :: qs) (addElement acc p 1) (by simp)

/-- C4 counterexample: for the empty prime list, `batchAdd` still reduces the
accumulator modulo `n` (`batchAdd 7 [] 5 = 7^1 mod 5 = 2`) while zero
sequential `addElement` calls leave it untouched (`7`), so the claimed
equality fails for the empty list the claim quantifies over. -/
theorem claim_C4_counterexample :
    batchAdd 7 ([] : List Int) 5 = 2 ∧
    (([] : List Int).foldl (fun a p => addElement a p 5) 7) = 7 ∧
    (2 : Int) ≠ 7 := by
  refine ⟨by decide, rfl, by decide⟩

/-- C4 (amended): for every accumulator value, every modulus `n ≥ 1` and
every NON-EMPTY list of primes (nonnegative exponents suffice), `batchAdd`
equals the sequential `addElement` fold over any permutation of the list;
the empty list is the only exception, where `batchAdd` normalizes the
accumulator modulo `n` while the empty fold returns it unchanged. -/
theorem claim_C4_batchAdd_perm (acc n : Int) (primes perm : List Int)
    (hn : 1 ≤ n) (hne : primes ≠ []) (hperm : perm.Perm primes)
    (hpos : ∀ p ∈ primes, 0 ≤ p) :
    batchAdd acc primes n = perm.foldl (fun a p => addElement a p n) acc := by
  have hpermne : perm ≠ [] := by
    intro hcontra
    rw [hcontra] at hperm
    exact hne hperm.nil_eq.symm  
  have hposperm : ∀ p ∈ perm, 0 ≤ p := fun p hp => hpos p (hperm.mem_iff.mp hp)
  by_cases hn1 : n = 1
  · subst hn1
    have hLHS : batchAdd acc primes 1 = 0 := by
      unfold batchAdd modPow
      simp
    rw [hLHS]
    exact (foldl_addElement_one perm acc hpermne).symm
  · have hn2 : 1 < n := by omega
    rw [foldl_addElement_eq n hn2 perm acc hpermne hposperm]
    unfold batchAdd
    rw [modPow_eq acc (primes.foldl (· * ·) 1) n (by omega)
      (foldl_mul_nonneg primes hpos)]
    congr 2
    rw [foldl_mul_eq_prod, foldl_mul_eq_prod]
    exact congrArg Int.toNat hperm.prod_eq.symm

/-- Witness for C4 on a concrete accumulator, modulus and permuted primes. -/
theorem claim_C4_witness :
    batchAdd 3 [3, 5] 10 = [5, 3].foldl (fun a p => addElement a p 10) 3 :=
  claim_C4_batchAdd_perm 3 10 [3, 5] [5, 3] (by decide) (by decide) (by decide)
    (by decide)

/-! ## C7: folding the IVC chain -/

theorem range_map_getElem {α : Type} (f : Nat → α) (n j : Nat) :
    ((List.range n).map f)[j]? = if j < n then some (f j) else none := by
  by_cases hj : j < n
  · rw [List.getElem?_map, List.getElem?_range hj, if_pos hj]
    rfl
  · rw [List.getElem?_map, List.getElem?_eq_none (by simpa using Nat.le_of_not_lt hj),
      if_neg hj]
    rfl

theorem buildIvcChain_eq_after_zero (inputs : Nat → Nat) (length : Nat) :
    buildIvcChain inputs length = ivcChainAfter inputs length 0 := by
  unfold buildIvcChain ivcChainAfter
  simp

theorem ivcChainAfter_length (inputs : Nat → Nat) (length k : Nat) :
    (ivcChainAfter inputs length k).steps.length = length := by
  simp [ivcChainAfter]

/-- One fold on the `k`-folded chain produces the `k+1`-folded chain. -/
theorem foldIvcStep_after (inputs : Nat → Nat) (length k : Nat) (hk : k < length) :
    foldIvcStep (ivcChainAfter inputs length k) = ivcChainAfter inputs length (k + 1) := by
  have hmink : min k length = k := min_eq_left (Nat.le_of_lt hk)
  have hmink1 : min (k + 1) length = k + 1 := min_eq_left hk
  have hcfi : (ivcChainAfter inputs length k).currentFoldIndex = (k : Int) - 1 := by
    simp only [ivcChainAfter]
    omega
  have hnext : (ivcChainAfter inputs length k).currentFoldIndex + 1 = (k : Int) := by
    rw [hcfi]; ring
  have hlen : (ivcChainAfter inputs length k).steps.length = length :=
    ivcChainAfter_length inputs length k
  have hgetk : (ivcChainAfter inputs length k).steps[k]? =
      some { id := "ivc_step_" ++ toString k, index := k,
             curve := if k % 2 = 0 then .pallas else .vesta,
             status := .pending,
             accumulatorHash :=
               fnv1a (jsOf ("step_" ++ toString k ++ "_input_" ++ toString (inputs k))),
             inputValue := inputs k, folded := false } := by
    show ((List.range length).map _)[k]? = _
    rw [range_map_getElem _ length k, if_pos hk]
    simp
  unfold foldIvcStep
  rw [hnext, hlen]
  rw [if_neg (by exact_mod_cast Nat.not_le.mpr hk)]
  rw [show jsGet (ivcChainAfter inputs length k).steps (k : Int) =
        (ivcChainAfter inputs length k).steps[k]? by
      simp [jsGet, Int.toNat_natCast]]
  rw [hgetk]
  simp only [Int.toNat_natCast]
  rcases k with _ | k2
  · -- k = 0 : no accumulator-hash update (nextIndex is not > 0)
    rw [if_neg (by decide)]
    have hg1 : jsGet ((ivcChainAfter inputs length 0).steps.set 0
        { id := "ivc_step_" ++ toString 0, index := 0,
          curve := if 0 % 2 = 0 then Curve.pallas else Curve.vesta,
          status := ProofStatus.verified,
          accumulatorHash := fnv1a (jsOf ("step_" ++ toString 0 ++ "_input_" ++ toString (inputs 0))),
          inputValue := inputs 0, folded := true }) ((0 : Nat) : Int) = some
        { id := "ivc_step_" ++ toString 0, index := 0,
          curve := if 0 % 2 = 0 then Curve.pallas else Curve.vesta,
          status := ProofStatus.verified,
          accumulatorHash := fnv1a (jsOf ("step_" ++ toString 0 ++ "_input_" ++ toString (inputs 0))),
          inputValue := inputs 0, folded := true } := by
      rw [jsGet, if_pos (by omega)]
      simp only [Int.toNat_natCast, List.get?_eq_getElem?]
      exact List.getElem?_set_self (by rw [hlen]; exact hk)
    show IvcChain.mk _ _ = IvcChain.mk _ _
    congr 1
    · -- the step lists agree elementwise
      apply List.ext_getElem?
      intro j
      by_cases hj : j = 0
      · subst hj
        rw [List.getElem?_set_self (by rw [hlen]; exact hk)]
        rw [range_map_getElem, if_pos hk]
        simp [ivcExpectedHash]
      · rw [List.getElem?_set_ne (fun hc => hj hc.symm)]
        show ((List.range length).map _)[j]? = ((List.range length).map _)[j]?
        rw [range_map_getElem, range_map_getElem]
        by_cases hjl : j < length
        · rw [if_pos hjl, if_pos hjl]
          have hj0 : ¬(j < 0) := by omega
          have hj1 : ¬(j < 0 + 1) := by omega
          simp [hj0, hj1]
        · rw [if_neg hjl, if_neg hjl]
    · -- the cursors agree
      omega
  · -- k = k2 + 1 : the accumulator hash is rebuilt from the previous step
    rw [if_pos (by exact_mod_cast Nat.succ_pos k2)]
    set st2 : IvcStep :=
      { id := "ivc_step_" ++ toString (k2 + 1), index := k2 + 1,
        curve := if (k2 + 1) % 2 = 0 then Curve.pallas else Curve.vesta,
        status := ProofStatus.verified,
        accumulatorHash :=
          fnv1a (jsOf ("step_" ++ toString (k2 + 1) ++ "_input_" ++ toString (inputs (k2 + 1)))),
        inputValue := inputs (k2 + 1), folded := true } with hst2
    set steps1 := (ivcChainAfter inputs length (k2 + 1)).steps.set (k2 + 1) st2 with hsteps1
    have hg1 : jsGet steps1 ((k2 + 1 : Nat) : Int) = some st2 := by
      rw [jsGet, if_pos (by omega)]
      simp only [Int.toNat_natCast, List.get?_eq_getElem?, hsteps1]
      exact List.getElem?_set_self (by rw [hlen]; omega)
    have hcast : ((k2 + 1 : Nat) : Int) - 1 = ((k2 : Nat) : Int) := by push_cast; ring
    have hgprev : jsGet steps1 (((k2 + 1 : Nat) : Int) - 1) = some
        { id := "ivc_step_" ++ toString k2, index := k2,
          curve := if k2 % 2 = 0 then Curve.pallas else Curve.vesta,
          status := ProofStatus.verified,
          accumulatorHash := ivcExpectedHash inputs k2,
          inputValue := inputs k2, folded := true } := by
      rw [hcast, jsGet, if_pos (by omega)]
      simp only [Int.toNat_natCast, List.get?_eq_getElem?, hsteps1]
      rw [List.getElem?_set_ne (by omega)]
      show ((List.range length).map _)[k2]? = _
      rw [range_map_getElem, if_pos (by omega)]
      have h1 : k2 < k2 + 1 := by omega
      simp [h1]
    rw [hg1, hgprev]
    simp only [Option.map_some, Option.getD_some]
    show IvcChain.mk _ _ = IvcChain.mk _ _
    congr 1
    · apply List.ext_getElem?
      intro j
      by_cases hj : j = k2 + 1
      · subst hj
        rw [List.getElem?_set_self (by rw [hsteps1, List.length_set, hlen]; omega)]
        rw [range_map_getElem, if_pos hk]
        have h1 : k2 + 1 < k2 + 1 + 1 := by omega
        simp [hst2, h1, ivcExpectedHash]
      · rw [List.getElem?_set_ne (fun hc => hj hc.symm), hsteps1,
          List.getElem?_set_ne (fun hc => hj hc.symm)]
        show ((List.range length).map _)[j]? = ((List.range length).map _)[j]?
        rw [range_map_getElem, range_map_getElem]
        by_cases hjl : j < length
        · rw [if_pos hjl, if_pos hjl]
          by_cases hjk : j < k2 + 1
          · have h2 : j < k2 + 1 + 1 := by omega
            simp [hjk, h2]
          · have h2 : ¬(j < k2 + 1 + 1) := by omega
            simp [hjk, h2]
        · rw [if_neg hjl, if_neg hjl]
    · omega

/-- Folding a fully folded chain is a no-op. -/
theorem foldIvcStep_terminal (inputs : Nat → Nat) (length : Nat) :
    foldIvcStep (ivcChainAfter inputs length length) =
      ivcChainAfter inputs length length := by
  unfold foldIvcStep
  rw [if_pos]
  rw [ivcChainAfter_length]
  show (length : Int) ≤ (ivcChainAfter inputs length length).currentFoldIndex + 1
  simp only [ivcChainAfter]
  omega

/-- After `k` fold calls the chain is exactly the `min k length`-folded
state. -/
theorem ivc_fold_master (inputs : Nat → Nat) (length : Nat) :
    ∀ k, foldIvcStep^[k] (buildIvcChain inputs length) =
      ivcChainAfter inputs length (min k length) := by
  intro k
  induction k with
  | zero =>
      simpa using buildIvcChain_eq_after_zero inputs length
  | succ k ih =>
      rw [Function.iterate_succ_apply', ih]
      by_cases hk : k < length
      · rw [min_eq_left (Nat.le_of_lt hk), foldIvcStep_after inputs length k hk,
          min_eq_left hk]
      · have h1 : min k length = length := min_eq_right (by omega)
        have h2 : min (k + 1) length = length := min_eq_right (by omega)
        rw [h1, h2, foldIvcStep_terminal]

/-- C7: starting from `buildIvcChain` (cursor `-1`, all steps pending and
unfolded, input values abstracted as `inputs`), each non-terminal
`foldIvcStep` call increments `currentFoldIndex` by one, marks exactly the
step at the new index as folded and `verified` (all other steps unchanged),
rebuilds that step's accumulator hash from the previous step's hash and this
step's input value when the new index is positive, leaves step 0's hash at
its initial value forever, and after `length` calls the cursor is
`length - 1` and any further call returns the chain unchanged. -/
theorem claim_C7_ivc_fold_run (inputs : Nat → Nat) (length : Nat) :
    (∀ k, k < length →
      (foldIvcStep^[k + 1] (buildIvcChain inputs length)).currentFoldIndex =
        (foldIvcStep^[k] (buildIvcChain inputs length)).currentFoldIndex + 1 ∧
      ((foldIvcStep^[k + 1] (buildIvcChain inputs length)).steps[k]?).map
          IvcStep.folded = some true ∧
      ((foldIvcStep^[k + 1] (buildIvcChain inputs length)).steps[k]?).map
          IvcStep.status = some ProofStatus.verified ∧
      (∀ j, j ≠ k →
        (foldIvcStep^[k + 1] (buildIvcChain inputs length)).steps[j]? =
          (foldIvcStep^[k] (buildIvcChain inputs length)).steps[j]?)) ∧
    (∀ k, 0 < k → k < length →
      ((foldIvcStep^[k + 1] (buildIvcChain inputs length)).steps[k]?).map
          IvcStep.accumulatorHash =
        ((foldIvcStep^[k] (buildIvcChain inputs length)).steps[k - 1]?).map
          fun prev =>
            fnv1a (prev.accumulatorHash ++ jsOf "_" ++ jsOf (toString (inputs k)))) ∧
    (0 < length → ∀ k,
      ((foldIvcStep^[k] (buildIvcChain inputs length)).steps[0]?).map
          IvcStep.accumulatorHash =
        some (fnv1a
          (jsOf ("step_" ++ toString (0 : Nat) ++ "_input_" ++ toString (inputs 0))))) ∧
    (foldIvcStep^[length] (buildIvcChain inputs length)).currentFoldIndex =
      (length : Int) - 1 ∧
    foldIvcStep (foldIvcStep^[length] (buildIvcChain inputs length)) =
      foldIvcStep^[length] (buildIvcChain inputs length) := by
  have master := ivc_fold_master inputs length
  refine ⟨?_, ?_, ?_, ?_, ?_⟩
  · intro k hk
    rw [master k, master (k + 1), min_eq_left (Nat.le_of_lt hk),
      min_eq_left hk]
    refine ⟨by simp only [ivcChainAfter]; omega, ?_, ?_, ?_⟩
    · show (((List.range length).map _)[k]?).map IvcStep.folded = some true
      rw [range_map_getElem, if_pos hk]
      simp
    · show (((List.range length).map _)[k]?).map IvcStep.status =
        some ProofStatus.verified
      rw [range_map_getElem, if_pos hk]
      simp
    · intro j hj
      show ((List.range length).map _)[j]? = ((List.range length).map _)[j]?
      rw [range_map_getElem, range_map_getElem]
      by_cases hjl : j < length
      · rw [if_pos hjl, if_pos hjl]
        by_cases hjk : j < k
        · have h2 : j < k + 1 := by omega
          simp [hjk, h2]
        · have h2 : ¬(j < k + 1) := by omega
          simp [hjk, h2]
      · rw [if_neg hjl, if_neg hjl]
  · intro k hk0 hk
    obtain ⟨m, rfl⟩ : ∃ m, k = m + 1 := ⟨k - 1, by omega⟩
    rw [master (m + 1 + 1), master (m + 1), min_eq_left hk,
      min_eq_left (Nat.le_of_lt hk)]
    show (((List.range length).map _)[m + 1]?).map IvcStep.accumulatorHash =
      (((List.range length).map _)[m + 1 - 1]?).map _
    rw [range_map_getElem, range_map_getElem, if_pos hk,
      if_pos (show m + 1 - 1 < length by omega)]
    have h1 : m + 1 < m + 1 + 1 := by omega
    have h2 : m + 1 - 1 < m + 1 := by omega
    simp only [if_pos h1, show m + 1 - 1 = m from rfl, if_pos h2, Option.map_some]
    simp [ivcExpectedHash]
  · intro hlen k
    rw [master k]
    show (((List.range length).map _)[0]?).map IvcStep.accumulatorHash = _
    rw [range_map_getElem, if_pos hlen]
    by_cases h0 : 0 < min k length
    · simp only [if_pos h0, Option.map_some]
      simp [ivcExpectedHash]
    · simp only [if_neg h0, Option.map_some]
      simp
  · rw [master length, min_self]
    simp only [ivcChainAfter]
    omega
  · rw [master length, min_self]
    exact foldIvcStep_terminal inputs length

/-- Witness for C7 on a concrete chain of length 2 with constant inputs. -/
theorem claim_C7_witness :
    (foldIvcStep^[2] (buildIvcChain (fun _ => 7) 2)).currentFoldIndex = 1 ∧
    foldIvcStep (foldIvcStep^[2] (buildIvcChain (fun _ => 7) 2)) =
      foldIvcStep^[2] (buildIvcChain (fun _ => 7) 2) ∧
    ((foldIvcStep^[1] (buildIvcChain (fun _ => 7) 2)).steps[0]?).map
      IvcStep.folded = some true := by
  obtain ⟨h1, _, _, h4, h5⟩ := claim_C7_ivc_fold_run (fun _ => 7) 2
  exact ⟨h4, h5, ((h1 0 (by omega)).2).1⟩

/-! ## C9: buildMerkleTree on empty entries -/

theorem leafNodesGo_payloads (hL : JsStr → JsStr) :
    ∀ (l : List JsStr) (i : Nat),
      (leafNodesGo hL i l).filterMap MerkleNode.dataOf =
        l.filter fun d => decide (d ≠ [])
  | [], _ => rfl
  | d :: rest, i => by
      by_cases hd : d = []
      · subst hd
        simp only [leafNodesGo, if_pos rfl, List.filter_cons]
        simpa using leafNodesGo_payloads hL rest (i + 1)
      · simp only [leafNodesGo, if_neg hd, List.filterMap_cons, List.filter_cons,
          MerkleNode.dataOf]
        simp only [hd, decide_not, ne_eq]
        simp [leafNodesGo_payloads hL rest (i + 1), hd]

theorem leafNodesGo_isSome (hL : JsStr → JsStr) :
    ∀ (l : List JsStr) (i : Nat) (n : MerkleNode), n ∈ leafNodesGo hL i l →
      (MerkleNode.dataOf n).isSome
  | [], _, _, hn => absurd hn (List.not_mem_nil _)
  | d :: rest, i, n, hn => by
      by_cases hd : d = []
      · subst hd
        rw [leafNodesGo, if_pos rfl] at hn
        exact leafNodesGo_isSome hL rest (i + 1) n hn
      · rw [leafNodesGo, if_neg hd] at hn
        rcases List.mem_cons.mp hn with h1 | h2
        · subst h1
          rfl
        · exact leafNodesGo_isSome hL rest (i + 1) n h2

theorem filterMap_dataOf_length :
    ∀ (ns : List MerkleNode), (∀ n ∈ ns, (MerkleNode.dataOf n).isSome) →
      (ns.filterMap MerkleNode.dataOf).length = ns.length ∧
      (ns.filterMap MerkleNode.dataOf).getLast? =
        ns.getLast?.bind MerkleNode.dataOf
  | [], _ => ⟨rfl, rfl⟩
  | n :: rest, h => by
      obtain ⟨d, hd⟩ := Option.isSome_iff_exists.mp (h n (by simp))
      obtain ⟨ih1, ih2⟩ :=
        filterMap_dataOf_length rest fun m hm => h m (by simp [hm])
      constructor
      · simp [List.filterMap_cons, hd, ih1]
      · cases hrest : rest with
        | nil =>
            subst hrest
            simp [List.filterMap_cons, hd]
        | cons m ms =>
            subst hrest
            have hlast : (m :: ms).getLast? = some (ms.getLast?.getD m) :=
              List.getLast?_cons
            have hlastmem : ms.getLast?.getD m ∈ m :: ms :=
              List.mem_of_getLast?_eq_some hlast
            obtain ⟨dl, hdl⟩ :=
              Option.isSome_iff_exists.mp
                (h (ms.getLast?.getD m) (List.mem_cons_of_mem n hlastmem))
            rw [List.filterMap_cons, hd, List.getLast?_cons, List.getLast?_cons,
              ih2, hlast]
            simp [hdl]

theorem dupLast_payloads (ns : List MerkleNode)
    (h : ∀ n ∈ ns, (MerkleNode.dataOf n).isSome) :
    (dupLast ns).filterMap MerkleNode.dataOf =
      if 1 < ns.length ∧ ns.length % 2 ≠ 0 then
        ns.filterMap MerkleNode.dataOf ++
          (ns.filterMap MerkleNode.dataOf).getLast?.toList
      else ns.filterMap MerkleNode.dataOf := by
  unfold dupLast
  by_cases hc : 1 < ns.length ∧ ns.length % 2 ≠ 0
  · rw [if_pos hc, if_pos hc]
    have hne : ns ≠ [] := by
      intro h0
      rw [h0] at hc
      simp at hc
    obtain ⟨last, hlast⟩ : ∃ last, ns.getLast? = some last := by
      cases hl : ns.getLast? with
      | none => exact absurd (List.getLast?_eq_none_iff.mp hl) hne
      | some x => exact ⟨x, rfl⟩
    have hmem := List.mem_of_getLast?_eq_some hlast
    obtain ⟨dl, hdl⟩ := Option.isSome_iff_exists.mp (h last hmem)
    have hfm := (filterMap_dataOf_length ns h).2
    cases hlf : last with
    | node i hsh l r ix =>
        rw [hlf] at hdl
        exact absurd hdl (by simp [MerkleNode.dataOf])
    | leaf i hsh dd ix =>
        rw [hlf] at hlast hdl
        rw [hlast]
        simp only [List.filterMap_append]
        congr 1
        rw [hfm, hlast]
        simp [MerkleNode.dataOf]
  · rw [if_neg hc, if_neg hc]

theorem dupLast_eq_nil_iff (ns : List MerkleNode) : dupLast ns = [] ↔ ns = [] := by
  unfold dupLast
  by_cases hc : 1 < ns.length ∧ ns.length % 2 ≠ 0
  · rw [if_pos hc]
    have hne : ns ≠ [] := by
      intro h0
      rw [h0] at hc
      simp at hc
    cases hl : ns.getLast? with
    | none => simp [hne]
    | some x => cases x <;> simp [hne]
  · rw [if_neg hc]

theorem buildLevels_snd_ne_nil (hI : JsStr → JsStr → JsStr) :
    ∀ (N d : Nat) (cur : List MerkleNode), cur.length ≤ N → cur ≠ [] →
      (buildLevels hI d cur).2 ≠ [] := by
  intro N
  induction N with
  | zero =>
      intro d cur hlen hne
      exact absurd (List.length_eq_zero.mp (Nat.le_zero.mp hlen)) hne
  | succ N ih =>
      intro d cur hlen hne
      rw [buildLevels_eq]
      by_cases h1 : 1 < cur.length
      · rw [if_pos h1]
        apply ih
        · rw [pairUp_length]
          omega
        · intro hc
          have := congrArg List.length hc
          rw [pairUp_length] at this
          simp at this
          omega
      · rw [if_neg h1]
        exact hne

/-- C9: `buildMerkleTree` returns `null` exactly when no entry is a
non-empty string (empty entries are falsy and skipped before hashing), and
when a tree is built its leaf payloads are precisely the non-empty entries,
with the last one duplicated for an odd count above one — so leaf indices
shift relative to input positions when empty entries are present. -/
theorem claim_C9_build_empty_handling (hL : JsStr → JsStr)
    (hI : JsStr → JsStr → JsStr) (leaves : List JsStr) :
    (buildMerkleTree hL hI leaves = none ↔ ∀ s ∈ leaves, s = []) ∧
    (∀ t, buildMerkleTree hL hI leaves = some t →
      t.leaves.filterMap MerkleNode.dataOf = expectedLeafData leaves) := by
  have hsome : ∀ n ∈ leafNodes hL leaves, (MerkleNode.dataOf n).isSome :=
    fun n hn => leafNodesGo_isSome hL leaves 0 n hn
  have hfm : (leafNodes hL leaves).filterMap MerkleNode.dataOf =
      leaves.filter fun d => decide (d ≠ []) := leafNodesGo_payloads hL leaves 0
  have hlen : ((leafNodes hL leaves).filterMap MerkleNode.dataOf).length =
      (leafNodes hL leaves).length := (filterMap_dataOf_length _ hsome).1
  by_cases hl0 : leaves = []
  · subst hl0
    constructor
    · simp [buildMerkleTree]
    · intro t ht
      rw [buildMerkleTree] at ht
      simp at ht
  · unfold buildMerkleTree
    rw [if_neg hl0]
    by_cases hns : dupLast (leafNodes hL leaves) = []
    · have hns0 : leafNodes hL leaves = [] := (dupLast_eq_nil_iff _).mp hns
      have hfe : leaves.filter (fun d => decide (d ≠ [])) = [] := by
        rw [← hfm, hns0]
        rfl
      have hempty : ∀ s ∈ leaves, s = [] := by
        intro s hs
        have := List.filter_eq_nil_iff.mp hfe s hs
        simpa using this
      have hbl : buildLevels hI 0 [] = (0, []) := by
        rw [buildLevels_eq]
        simp
      dsimp only []
      rw [hns, hbl]
      exact ⟨⟨fun _ => hempty, fun _ => rfl⟩, fun t ht => Option.noConfusion ht⟩
    · have hne2 : (buildLevels hI 0 (dupLast (leafNodes hL leaves))).2 ≠ [] :=
        buildLevels_snd_ne_nil hI (dupLast (leafNodes hL leaves)).length 0 _
          (Nat.le_refl _) hns
      have hnonempty : ∃ s ∈ leaves, s ≠ [] := by
        by_contra hc
        push_neg at hc
        have hfe : leaves.filter (fun d => decide (d ≠ [])) = [] := by
          rw [List.filter_eq_nil_iff]
          intro a ha
          simp [hc a ha]
        rw [← hfm] at hfe
        have : (leafNodes hL leaves).length = 0 := by
          rw [← hlen, hfe]
          rfl
        exact hns ((dupLast_eq_nil_iff _).mpr (List.length_eq_zero.mp this))
      dsimp only []
      cases hbl : (buildLevels hI 0 (dupLast (leafNodes hL leaves))).2 with
      | nil => exact absurd hbl hne2
      | cons root rest =>
          constructor
          · constructor
            · intro hcontra
              exact Option.noConfusion hcontra
            · intro hall
              obtain ⟨s, hs, hsne⟩ := hnonempty
              exact absurd (hall s hs) hsne
          · intro t ht
            have ht2 : t = ⟨root, dupLast (leafNodes hL leaves),
                (buildLevels hI 0 (dupLast (leafNodes hL leaves))).1,
                (dupLast (leafNodes hL leaves)).length * 2 - 1⟩ :=
              (Option.some.injEq _ _).mp ht.symm
            rw [ht2]
            show (dupLast (leafNodes hL leaves)).filterMap MerkleNode.dataOf =
              expectedLeafData leaves
            rw [dupLast_payloads _ hsome, expectedLeafData]
            rw [hfm] at hlen ⊢
            rw [← hlen]

/-- Witness for C9: an all-empty input yields `none`; an input with one
empty and one non-empty entry yields a tree whose leaf payloads are exactly
the non-empty entries. -/
theorem claim_C9_witness :
    buildMerkleTree hashLeafF hashInternalF [[], []] = none ∧
    (buildMerkleTree hashLeafF hashInternalF [[], jsOf "a"]).map
        (fun t => t.leaves.filterMap MerkleNode.dataOf) =
      some (expectedLeafData [[], jsOf "a"]) := by
  constructor
  · exact (claim_C9_build_empty_handling hashLeafF hashInternalF [[], []]).1.mpr
      (by decide)
  · cases hb : buildMerkleTree hashLeafF hashInternalF [[], jsOf "a"] with
    | none =>
        have hall := (claim_C9_build_empty_handling hashLeafF hashInternalF
          [[], jsOf "a"]).1.mp hb
        exact absurd (hall (jsOf "a") (by simp)) (by decide)
    | some t =>
        show some (List.filterMap MerkleNode.dataOf t.leaves) =
          some (expectedLeafData [[], jsOf "a"])
        exact congrArg some
          ((claim_C9_build_empty_handling hashLeafF hashInternalF
            [[], jsOf "a"]).2 t hb)

/-! ## C3: non-membership witnesses -/

theorem int_gcd_emod (a b : Int) (ha : 0 < a) (hb : 0 ≤ b) :
    Int.gcd (b % a) a = Int.gcd a b := by
  have hmod : b % a = ((b.natAbs % a.natAbs : Nat) : Int) := by
    conv_lhs => rw [← Int.natAbs_of_nonneg hb, ← Int.natAbs_of_nonneg (le_of_lt ha)]
    push_cast
    rfl
  rw [Int.gcd_def, Int.gcd_def, hmod, Int.natAbs_ofNat]
  exact (Nat.gcd_rec a.natAbs b.natAbs).symm

theorem extendedGcdGo_spec :
    ∀ (f : Nat) (a b : Int), 0 ≤ a → 0 ≤ b → a.natAbs < f →
      (extendedGcdGo f a b).gcd = (Int.gcd a b : Int) ∧
      a * (extendedGcdGo f a b).x + b * (extendedGcdGo f a b).y =
        (extendedGcdGo f a b).gcd := by
  intro f
  induction f with
  | zero =>
      intro a b _ _ hf
      omega
  | succ f ih =>
      intro a b ha hb hf
      by_cases ha0 : a = 0
      · subst ha0
        have he : extendedGcdGo (f + 1) 0 b = ⟨b, 0, 1⟩ := by
          unfold extendedGcdGo
          rw [if_pos rfl]
        rw [he]
        constructor
        · show b = (Int.gcd 0 b : Int)
          rw [Int.gcd_zero_left, Int.natAbs_of_nonneg hb]
        · show 0 * (0 : Int) + b * 1 = b
          ring
      · have hapos : 0 < a := lt_of_le_of_ne ha (Ne.symm ha0)
        have hrec1 : 0 ≤ b.tmod a := Int.tmod_nonneg a hb
        have htmod : b.tmod a = b % a := Int.tmod_eq_emod hb ha
        have hrec2 : (b.tmod a).natAbs < f := by
          have h1 : b.tmod a < a := Int.tmod_lt_of_pos b hapos
          omega
        obtain ⟨ihg, ihb⟩ := ih (b.tmod a) a hrec1 ha hrec2
        simp only [extendedGcdGo, if_neg ha0]
        constructor
        · rw [ihg, htmod, int_gcd_emod a b hapos hb]
        · have htd : b.tmod a = b - a * b.tdiv a := Int.tmod_def b a
          linear_combination ihb - (extendedGcdGo f (b.tmod a) a).x * htd
theorem extendedGcd_spec (a b : Int) (ha : 0 ≤ a) (hb : 0 ≤ b) :
    (extendedGcd a b).gcd = (Int.gcd a b : Int) ∧
    a * (extendedGcd a b).x + b * (extendedGcd a b).y = (extendedGcd a b).gcd :=
  extendedGcdGo_spec (a.natAbs + 1) a b ha hb (Nat.lt_succ_self _)

/-- `modInverse` succeeds on coprime inputs and returns the inverse in
`[0, m)`. -/
theorem modInverse_spec (a m : Int) (hm : 1 < m) (ha : 0 ≤ a) (hg : Int.gcd a m = 1) :
    ∃ v, modInverse a m = some v ∧ 0 ≤ v ∧ v < m ∧ (a * v) % m = 1 % m := by
  have hm0 : 0 < m := by omega
  have hna : (a.tmod m + m).tmod m = a % m := tmod_norm a m hm0
  have hnaNN : 0 ≤ a % m := Int.emod_nonneg a (by omega)
  have hgcd2 : Int.gcd (a % m) m = 1 := by
    rw [int_gcd_emod m a hm0 ha, Int.gcd_comm]
    exact hg
  obtain ⟨hgA, hbez⟩ := extendedGcd_spec (a % m) m hnaNN (le_of_lt hm0)
  refine ⟨((extendedGcd (a % m) m).x.tmod m + m).tmod m, ?_, ?_, ?_, ?_⟩
  · unfold modInverse
    rw [hna]
    rw [if_neg (by rw [hgA, hgcd2]; simp)]
  · rw [tmod_norm _ m hm0]
    exact Int.emod_nonneg _ (by omega)
  · rw [tmod_norm _ m hm0]
    exact Int.emod_lt_of_pos _ hm0
  · rw [tmod_norm _ m hm0]
    rw [emod_mul_right_emod]
    rw [show (a * (extendedGcd (a % m) m).x) % m =
        ((a % m) * (extendedGcd (a % m) m).x) % m from (emod_mul_left_emod _ _ _).symm]
    have hg1 : (extendedGcd (a % m) m).gcd = 1 := by
      rw [hgA, hgcd2]
      norm_num
    rw [hg1] at hbez
    have h3 : (a % m) * (extendedGcd (a % m) m).x =
        1 + -(extendedGcd (a % m) m).y * m := by
      linear_combination hbez
    rw [h3, Int.add_mul_emod_self]

theorem intCast_modPow (N : Nat) (hN : 1 < N) (b e : Int) (he : 0 ≤ e) :
    ((modPow b e (N : Int) : Int) : ZMod N) = (b : ZMod N) ^ e.toNat := by
  have hN0 : (0 : Int) < (N : Int) := by exact_mod_cast (by omega : 0 < N)
  rw [modPow_eq b e (N : Int) hN0 he, ZMod.intCast_mod]
  push_cast
  ring

theorem modPow_nonneg_of (N : Nat) (hN : 1 < N) (b e : Int) (he : 0 ≤ e) :
    0 ≤ modPow b e (N : Int) := by
  have hN0 : (0 : Int) < (N : Int) := by exact_mod_cast (by omega : 0 < N)
  rw [modPow_eq b e (N : Int) hN0 he]
  exact Int.emod_nonneg _ (by omega)

/-- `modPowSigned` on a unit base: it always succeeds, returns a nonnegative
value, and casts to the signed power of the corresponding unit of `ZMod N`. -/
theorem modPowSigned_cast (N : Nat) (hN : 1 < N) (b x : Int) (hb : 0 ≤ b)
    (u : (ZMod N)ˣ) (hu : (u : ZMod N) = (b : ZMod N))
    (hco : Int.gcd b (N : Int) = 1) :
    ∃ w, modPowSigned b x (N : Int) = .ok w ∧ 0 ≤ w ∧
      ((w : Int) : ZMod N) = ((u ^ x : (ZMod N)ˣ) : ZMod N) := by
  have hN0 : (1 : Int) < (N : Int) := by exact_mod_cast hN
  by_cases hx : 0 ≤ x
  · refine ⟨modPow b x (N : Int), by rw [modPowSigned, if_pos hx], 
      modPow_nonneg_of N hN b x hx, ?_⟩
    rw [intCast_modPow N hN b x hx, ← hu]
    rw [← Units.val_pow_eq_pow_val]
    congr 1
    rw [show u ^ x = u ^ ((x.toNat : Nat) : Int) by rw [Int.toNat_of_nonneg hx]]
    exact (zpow_natCast u x.toNat).symm
  · obtain ⟨iv, hiv, hivnn, _, hivmul⟩ := modInverse_spec b (N : Int) hN0 hb hco
    refine ⟨modPow iv (-x) (N : Int), ?_, 
      modPow_nonneg_of N hN iv (-x) (by omega), ?_⟩
    · rw [modPowSigned, if_neg hx, hiv]
    · have hone : (1 : Int) % (N : Int) = 1 := Int.emod_eq_of_lt (by omega) hN0
      rw [hone] at hivmul
      have hcast : ((b * iv : Int) : ZMod N) = 1 := by
        rw [← ZMod.intCast_mod, hivmul]
        norm_num
      have hinv : ((u⁻¹ : (ZMod N)ˣ) : ZMod N) = ((iv : Int) : ZMod N) := by
        apply Units.inv_eq_of_mul_eq_one_right
        rw [hu]
        push_cast at hcast ⊢
        exact hcast
      rw [intCast_modPow N hN iv (-x) (by omega), ← hinv, ← Units.val_pow_eq_pow_val]
      congr 1
      rw [show u ^ x = u ^ (-(((-x).toNat : Nat) : Int)) by
        congr 1
        rw [Int.toNat_of_nonneg (by omega : 0 ≤ -x)]
        ring]
      rw [zpow_neg, zpow_natCast]
      exact (inv_pow u (-x).toNat).symm

/-- C3: with `acc = g^(product of members) mod n`, `n > 1`, `gcd(g,n) = 1`
and distinct positive member primes: a target already in the member list
gets `null` from `computeNonMembershipWitness`; a non-member target coprime
to the member product gets a witness pair `(w, b)` that
`verifyNonMembershipWitness` accepts. -/
theorem claim_C3_nonmembership_witness (elements : List Int) (target g acc n : Int)
    (hn : 1 < n) (hg0 : 0 ≤ g) (hgco : Int.gcd g n = 1)
    (hmem : ∀ m ∈ elements, Nat.Prime m.natAbs ∧ 0 < m)
    (hdistinct : elements.Pairwise (· ≠ ·))
    (htpos : 0 < target)
    (hacc : acc = modPow g (elements.foldl (· * ·) 1) n) :
    (target ∈ elements → computeNonMembershipWitness elements target g n = .ok none) ∧
    (target ∉ elements → Int.gcd target (elements.foldl (· * ·) 1) = 1 →
      ∃ w b, computeNonMembershipWitness elements target g n = .ok (some (w, b)) ∧
        verifyNonMembershipWitness w b target acc g n = .ok true) := by
  obtain ⟨N, rfl⟩ : ∃ N : Nat, n = (N : Int) :=
    ⟨n.toNat, (Int.toNat_of_nonneg (by omega)).symm⟩
  have hN : 1 < N := by exact_mod_cast hn
  have hN0 : (0 : Int) < (N : Int) := by omega
  constructor
  · intro ht
    rw [computeNonMembershipWitness, if_pos ht]
  · intro htn hgcdT
    have hPnn : 0 ≤ elements.foldl (· * ·) 1 :=
      foldl_mul_nonneg elements fun p hp => le_of_lt (hmem p hp).2
    obtain ⟨hgA, hbez⟩ :=
      extendedGcd_spec target (elements.foldl (· * ·) 1) (le_of_lt htpos) hPnn
    have hg1 : (extendedGcd target (elements.foldl (· * ·) 1)).gcd = 1 := by
      rw [hgA, hgcdT]
      norm_num
    rw [hg1] at hbez
    have hco2 : Nat.Coprime g.natAbs N := by
      rw [Nat.Coprime, show N = ((N : Int)).natAbs from (Int.natAbs_ofNat N).symm]
      exact hgco
    have hu : ((ZMod.unitOfCoprime g.natAbs hco2 : (ZMod N)ˣ) : ZMod N) =
        ((g : Int) : ZMod N) := by
      rw [ZMod.coe_unitOfCoprime]
      conv_rhs => rw [← Int.natAbs_of_nonneg hg0]
      rw [Int.cast_natCast]
    obtain ⟨w, hw, hwnn, hwcast⟩ := modPowSigned_cast N hN g
      (extendedGcd target (elements.foldl (· * ·) 1)).x hg0
      (ZMod.unitOfCoprime g.natAbs hco2) hu hgco
    have hcompute : computeNonMembershipWitness elements target g (N : Int) =
        .ok (some (w, (extendedGcd target (elements.foldl (· * ·) 1)).y)) := by
      rw [computeNonMembershipWitness, if_neg htn]
      dsimp only []
      rw [if_neg fun hc => hc hg1, hw]
    have haccnn : 0 ≤ acc := by
      rw [hacc]
      exact modPow_nonneg_of N hN g _ hPnn
    have haccgcd : Int.gcd acc (N : Int) = 1 := by
      rw [hacc, modPow_eq g _ (N : Int) hN0 hPnn,
        int_gcd_emod (N : Int) _ hN0 (pow_nonneg hg0 _), Int.gcd_comm,
        Int.gcd_def, Int.natAbs_pow, Int.natAbs_ofNat]
      exact Nat.Coprime.pow_left _ hco2
    have hua : (((ZMod.unitOfCoprime g.natAbs hco2 : (ZMod N)ˣ) ^
          (elements.foldl (· * ·) 1).toNat : (ZMod N)ˣ) : ZMod N) =
        ((acc : Int) : ZMod N) := by
      rw [hacc, intCast_modPow N hN g _ hPnn, ← hu, Units.val_pow_eq_pow_val]
    obtain ⟨s, hs, hsnn, hscast⟩ := modPowSigned_cast N hN acc
      (extendedGcd target (elements.foldl (· * ·) 1)).y haccnn
      ((ZMod.unitOfCoprime g.natAbs hco2) ^ (elements.foldl (· * ·) 1).toNat) hua
      haccgcd
    refine ⟨w, (extendedGcd target (elements.foldl (· * ·) 1)).y, hcompute, ?_⟩
    have heq : (modPow w target (N : Int) * s).tmod (N : Int) =
        g.tmod (N : Int) := by
      have hAnn : 0 ≤ modPow w target (N : Int) :=
        modPow_nonneg_of N hN w target (le_of_lt htpos)
      rw [Int.tmod_eq_emod (mul_nonneg hAnn hsnn) (le_of_lt hN0),
        Int.tmod_eq_emod hg0 (le_of_lt hN0)]
      have hmain : ((modPow w target (N : Int) * s : Int) : ZMod N) =
          ((g : Int) : ZMod N) := by
        push_cast
        rw [intCast_modPow N hN w target (le_of_lt htpos), hwcast, hscast, ← hu,
          ← Units.val_pow_eq_pow_val, ← Units.val_mul]
        congr 1
        have hexp : (extendedGcd target (elements.foldl (· * ·) 1)).x *
              ((target.toNat : Nat) : Int) +
            (((elements.foldl (· * ·) 1).toNat : Nat) : Int) *
              (extendedGcd target (elements.foldl (· * ·) 1)).y = 1 := by
          rw [Int.toNat_of_nonneg (le_of_lt htpos), Int.toNat_of_nonneg hPnn]
          linear_combination hbez
        calc (ZMod.unitOfCoprime g.natAbs hco2 ^
              (extendedGcd target (elements.foldl (· * ·) 1)).x) ^ target.toNat *
            (ZMod.unitOfCoprime g.natAbs hco2 ^
              (elements.foldl (· * ·) 1).toNat) ^
              (extendedGcd target (elements.foldl (· * ·) 1)).y
            = ZMod.unitOfCoprime g.natAbs hco2 ^
                ((extendedGcd target (elements.foldl (· * ·) 1)).x *
                  ((target.toNat : Nat) : Int)) *
              ZMod.unitOfCoprime g.natAbs hco2 ^
                ((((elements.foldl (· * ·) 1).toNat : Nat) : Int) *
                  (extendedGcd target (elements.foldl (· * ·) 1)).y) := by
              rw [zpow_mul, zpow_natCast, zpow_mul, zpow_natCast]
          _ = ZMod.unitOfCoprime g.natAbs hco2 ^ (1 : Int) := by
              rw [← zpow_add, hexp]
          _ = ZMod.unitOfCoprime g.natAbs hco2 := zpow_one _
      exact (ZMod.intCast_eq_intCast_iff' _ _ _).mp hmain
    rw [verifyNonMembershipWitness, hs]
    show Except.ok (decide ((modPow w target (N : Int) * s).tmod (N : Int) =
      g.tmod (N : Int))) = Except.ok true
    rw [decide_eq_true heq]

/-- Witness for C3 with members `[3]`, generator `2`, modulus `15`:
target `3` is a member and gets `none`; target `5` gets a verifying witness
pair. -/
theorem claim_C3_witness :
    computeNonMembershipWitness [3] 3 2 15 = .ok none ∧
    (∃ w b, computeNonMembershipWitness [3] 5 2 15 = .ok (some (w, b)) ∧
      verifyNonMembershipWitness w b 5
        (modPow 2 (([3] : List Int).foldl (· * ·) 1) 15) 2 15 = .ok true) := by
  constructor
  · exact (claim_C3_nonmembership_witness [3] 3 2
      (modPow 2 (([3] : List Int).foldl (· * ·) 1) 15) 15 (by decide) (by decide)
      (by decide) (by decide) (by decide) (by decide) rfl).1 (by decide)
  · exact (claim_C3_nonmembership_witness [3] 5 2
      (modPow 2 (([3] : List Int).foldl (· * ·) 1) 15) 15 (by decide) (by decide)
      (by decide) (by decide) (by decide) (by decide) rfl).2 (by decide) (by decide)

/-! ## C8 (amended): single-character tampering on short proofs -/

theorem fnvStep_lt (h c : Nat) : fnvStep h c < 4294967296 :=
  Nat.mod_lt _ (by norm_num)

theorem fnv1aState_lt (l : JsStr) (h : Nat) (hh : h < 4294967296) :
    fnv1aState h l < 4294967296 := by
  induction l generalizing h with
  | nil => exact hh
  | cons c rest ih => exact ih (fnvStep h c) (fnvStep_lt h c)

theorem coprime_fnv_prime : Nat.Coprime 16777619 4294967296 := by decide

theorem xor_lt_32 (x y : Nat) (hx : x < 4294967296) (hy : y < 4294967296) :
    x ^^^ y < 4294967296 := by
  have h32 : (4294967296 : Nat) = 2 ^ 32 := by norm_num
  rw [h32] at hx hy ⊢
  exact Nat.xor_lt_two_pow hx hy

theorem fnvStep_inj_state (h1 h2 c : Nat) (hb1 : h1 < 4294967296)
    (hb2 : h2 < 4294967296) (hc : c < 4294967296)
    (he : fnvStep h1 c = fnvStep h2 c) : h1 = h2 := by
  have hx1 : h1 ^^^ c < 4294967296 := xor_lt_32 h1 c hb1 hc
  have hx2 : h2 ^^^ c < 4294967296 := xor_lt_32 h2 c hb2 hc
  have hmod : (h1 ^^^ c) * 16777619 ≡ (h2 ^^^ c) * 16777619 [MOD 4294967296] := he
  have hcanc : h1 ^^^ c ≡ h2 ^^^ c [MOD 4294967296] :=
    Nat.ModEq.cancel_right_of_coprime (by decide) hmod
  have hxeq : h1 ^^^ c = h2 ^^^ c := by
    have := hcanc
    unfold Nat.ModEq at this
    rwa [Nat.mod_eq_of_lt hx1, Nat.mod_eq_of_lt hx2] at this
  have := congrArg (fun z => z ^^^ c) hxeq
  simpa [Nat.xor_cancel_right] using this

theorem fnvStep_inj_char (h c1 c2 : Nat) (hb : h < 4294967296)
    (hc1 : c1 < 4294967296) (hc2 : c2 < 4294967296) (hne : c1 ≠ c2) :
    fnvStep h c1 ≠ fnvStep h c2 := by
  intro he
  have hx1 : h ^^^ c1 < 4294967296 := xor_lt_32 h c1 hb hc1
  have hx2 : h ^^^ c2 < 4294967296 := xor_lt_32 h c2 hb hc2
  have hmod : (h ^^^ c1) * 16777619 ≡ (h ^^^ c2) * 16777619 [MOD 4294967296] := he
  have hcanc : h ^^^ c1 ≡ h ^^^ c2 [MOD 4294967296] :=
    Nat.ModEq.cancel_right_of_coprime (by decide) hmod
  have hxeq : h ^^^ c1 = h ^^^ c2 := by
    unfold Nat.ModEq at hcanc
    rwa [Nat.mod_eq_of_lt hx1, Nat.mod_eq_of_lt hx2] at hcanc
  have := congrArg (fun z => h ^^^ z) hxeq
  simp only [Nat.xor_cancel_left] at this
  exact hne this

theorem fnv1aState_inj (l : JsStr) (hwf : ∀ c ∈ l, c < 4294967296) :
    ∀ h1 h2, h1 < 4294967296 → h2 < 4294967296 →
      fnv1aState h1 l = fnv1aState h2 l → h1 = h2 := by
  induction l with
  | nil => intro h1 h2 _ _ he; exact he
  | cons c rest ih =>
      intro h1 h2 hb1 hb2 he
      have hc : c < 4294967296 := hwf c (by simp)
      have hrest : ∀ x ∈ rest, x < 4294967296 := fun x hx => hwf x (by simp [hx])
      exact fnvStep_inj_state h1 h2 c hb1 hb2 hc
        (ih hrest (fnvStep h1 c) (fnvStep h2 c) (fnvStep_lt _ _) (fnvStep_lt _ _) he)

/-- FNV-1a distinguishes equal-length strings that differ in exactly one
code unit. -/
theorem fnv1aNum_single_diff (pre suf : JsStr) (c1 c2 : Nat)
    (hwfp : ∀ c ∈ pre, c < 4294967296) (hwfs : ∀ c ∈ suf, c < 4294967296)
    (hc1 : c1 < 4294967296) (hc2 : c2 < 4294967296) (hne : c1 ≠ c2) :
    fnv1aNum (pre ++ c1 :: suf) ≠ fnv1aNum (pre ++ c2 :: suf) := by
  intro he
  unfold fnv1aNum fnv1aState at he
  rw [List.foldl_append, List.foldl_append, List.foldl_cons, List.foldl_cons] at he
  have hst : List.foldl fnvStep 2166136261 pre < 4294967296 :=
    fnv1aState_lt pre 2166136261 (by norm_num)
  have hdiff := fnvStep_inj_char (List.foldl fnvStep 2166136261 pre) c1 c2 hst hc1 hc2 hne
  exact hdiff (fnv1aState_inj suf hwfs _ _ (fnvStep_lt _ _) (fnvStep_lt _ _) he)

theorem hexDigit_inj : ∀ d1 < 16, ∀ d2 < 16, hexDigit d1 = hexDigit d2 → d1 = d2 := by
  decide

theorem toHex8_inj (n1 n2 : Nat) (h1 : n1 < 4294967296) (h2 : n2 < 4294967296)
    (he : toHex8 n1 = toHex8 n2) : n1 = n2 := by
  unfold toHex8 at he
  simp only [List.cons.injEq, and_true] at he
  obtain ⟨e7, e6, e5, e4, e3, e2, e1, e0⟩ := he
  have d7 := hexDigit_inj _ (Nat.mod_lt _ (by norm_num)) _ (Nat.mod_lt _ (by norm_num)) e7
  have d6 := hexDigit_inj _ (Nat.mod_lt _ (by norm_num)) _ (Nat.mod_lt _ (by norm_num)) e6
  have d5 := hexDigit_inj _ (Nat.mod_lt _ (by norm_num)) _ (Nat.mod_lt _ (by norm_num)) e5
  have d4 := hexDigit_inj _ (Nat.mod_lt _ (by norm_num)) _ (Nat.mod_lt _ (by norm_num)) e4
  have d3 := hexDigit_inj _ (Nat.mod_lt _ (by norm_num)) _ (Nat.mod_lt _ (by norm_num)) e3
  have d2 := hexDigit_inj _ (Nat.mod_lt _ (by norm_num)) _ (Nat.mod_lt _ (by norm_num)) e2
  have d1 := hexDigit_inj _ (Nat.mod_lt _ (by norm_num)) _ (Nat.mod_lt _ (by norm_num)) e1
  have d0 := hexDigit_inj _ (Nat.mod_lt _ (by norm_num)) _ (Nat.mod_lt _ (by norm_num)) e0
  norm_num at d7 d6 d5 d4 d3 d2
  omega

/-- `fnv1a` distinguishes equal-length strings that differ in exactly one
code unit. -/
theorem fnv1a_single_diff (pre suf : JsStr) (c1 c2 : Nat)
    (hwfp : WfChars pre) (hwfs : WfChars suf)
    (hc1 : c1 < 4294967296) (hc2 : c2 < 4294967296) (hne : c1 ≠ c2) :
    fnv1a (pre ++ c1 :: suf) ≠ fnv1a (pre ++ c2 :: suf) := fun he =>
  fnv1aNum_single_diff pre suf c1 c2 hwfp hwfs hc1 hc2 hne
    (toHex8_inj _ _ (fnv1aState_lt _ _ (by norm_num)) (fnv1aState_lt _ _ (by norm_num)) he)

theorem wf_cons (a : Nat) (l : JsStr) (ha : a < 4294967296) (h : WfChars l) :
    WfChars (a :: l) := by
  intro c hc
  rcases List.mem_cons.mp hc with h2 | h2
  · omega
  · exact h c h2

theorem wf_append (l1 l2 : JsStr) (h1 : WfChars l1) (h2 : WfChars l2) :
    WfChars (l1 ++ l2) := by
  intro c hc
  rcases List.mem_append.mp hc with h | h
  · exact h1 c h
  · exact h2 c h

theorem wf_mid {pre suf : JsStr} {c : Nat} (h : WfChars (pre ++ c :: suf)) :
    WfChars pre ∧ c < 4294967296 ∧ WfChars suf :=
  ⟨fun x hx => h x (List.mem_append_left _ hx),
   h c (List.mem_append_right _ (List.mem_cons_self c suf)),
   fun x hx => h x (List.mem_append_right _ (List.mem_cons_of_mem c hx))⟩

/-- An internal-hash input whose right operand is tampered in one character
hashes differently under `fnv1a`. -/
theorem fnv1a_concat_diff_left (a b1 b2 : JsStr) (hwa : WfChars a)
    (hw1 : WfChars b1) (hw2 : WfChars b2) (hd : DiffersAtOneChar b1 b2) :
    fnv1a (1 :: (a ++ b1)) ≠ fnv1a (1 :: (a ++ b2)) := by
  unfold DiffersAtOneChar at hd
  obtain ⟨pre, c1, c2, suf, hne, hb1, hb2⟩ := hd
  subst hb1
  subst hb2
  have e1 : 1 :: (a ++ (pre ++ c1 :: suf)) = (1 :: (a ++ pre)) ++ c1 :: suf := by
    simp
  have e2 : 1 :: (a ++ (pre ++ c2 :: suf)) = (1 :: (a ++ pre)) ++ c2 :: suf := by
    simp
  rw [e1, e2]
  obtain ⟨hp, hc1, hs⟩ := wf_mid hw1
  obtain ⟨_, hc2, _⟩ := wf_mid hw2
  exact fnv1a_single_diff (1 :: (a ++ pre)) suf c1 c2
    (wf_cons 1 _ (by norm_num) (wf_append a pre hwa hp)) hs hc1 hc2 hne

/-- An internal-hash input whose left operand is tampered in one character
hashes differently under `fnv1a`. -/
theorem fnv1a_concat_diff_right (a1 a2 b : JsStr) (hw1 : WfChars a1)
    (hw2 : WfChars a2) (hwb : WfChars b) (hd : DiffersAtOneChar a1 a2) :
    fnv1a (1 :: (a1 ++ b)) ≠ fnv1a (1 :: (a2 ++ b)) := by
  unfold DiffersAtOneChar at hd
  obtain ⟨pre, c1, c2, suf, hne, ha1, ha2⟩ := hd
  subst ha1
  subst ha2
  have e1 : 1 :: ((pre ++ c1 :: suf) ++ b) = (1 :: pre) ++ c1 :: (suf ++ b) := by
    simp
  have e2 : 1 :: ((pre ++ c2 :: suf) ++ b) = (1 :: pre) ++ c2 :: (suf ++ b) := by
    simp
  rw [e1, e2]
  obtain ⟨hp, hc1, hs⟩ := wf_mid hw1
  obtain ⟨_, hc2, _⟩ := wf_mid hw2
  exact fnv1a_single_diff (1 :: pre) (suf ++ b) c1 c2
    (wf_cons 1 pre (by norm_num) hp) (wf_append suf b hs hwb) hc1 hc2 hne

/-- C8 (amended): for an accepted `fnv1a`-mode proof with at most one sibling,
changing a single character of the leaf hash (same siblings) or of the sibling
hash (same leaf hash and position) makes `verifyProof` reject against the same
root.  The counterexample shows this fails for deeper proofs. -/
theorem claim_C8_amended (li li2 : Nat) (lh lh2 rt : JsStr)
    (sibs sibs2 : List Sibling)
    (hlen : sibs.length ≤ 1)
    (hwf1 : WfChars lh) (hwf1s : ∀ s ∈ sibs, WfChars s.hash)
    (hwf2 : WfChars lh2) (hwf2s : ∀ s ∈ sibs2, WfChars s.hash)
    (hacc : verifyProof hashInternalF ⟨li, lh, sibs, rt⟩ = true)
    (ht : (DiffersAtOneChar lh lh2 ∧ sibs2 = sibs) ∨
      (lh2 = lh ∧ ∃ s s2, sibs = [s] ∧ sibs2 = [s2] ∧
        s2.position = s.position ∧ DiffersAtOneChar s.hash s2.hash)) :
    verifyProof hashInternalF ⟨li2, lh2, sibs2, rt⟩ = false := by
  have hFp : sibs.foldl
      (fun cur s => match s.position with
        | SibPos.right => hashInternalF cur s.hash
        | SibPos.left => hashInternalF s.hash cur) lh = rt :=
    of_decide_eq_true hacc
  unfold verifyProof
  rw [decide_eq_false_iff_not]
  intro hF2
  have hF2b : sibs2.foldl
      (fun cur s => match s.position with
        | SibPos.right => hashInternalF cur s.hash
        | SibPos.left => hashInternalF s.hash cur) lh2 = rt := hF2
  clear hF2
  rcases sibs with _ | ⟨s, rest⟩
  · rcases ht with ⟨hdiff, hs2⟩ | ⟨_, s, s2, hps, _⟩
    · subst hs2
      simp only [List.foldl_nil] at hFp hF2b
      unfold DiffersAtOneChar at hdiff
      obtain ⟨pre, c1, c2, suf, hne, hl1, hl2⟩ := hdiff
      rw [hl1] at hFp
      rw [hl2] at hF2b
      rw [← hFp] at hF2b
      injection List.append_cancel_left hF2b with h3 _
      exact hne h3.symm
    · exact List.cons_ne_nil s [] hps.symm
  · rcases rest with _ | ⟨t, rest2⟩
    · simp only [List.foldl_cons, List.foldl_nil] at hFp
      rcases ht with ⟨hdiff, hs2⟩ | ⟨hlh, sA, s2, hps, hps2, hpos, hdiffs⟩
      · subst hs2
        simp only [List.foldl_cons, List.foldl_nil] at hF2b
        have hsw : WfChars s.hash := hwf1s s (List.mem_singleton_self s)
        rcases hsp : s.position with _ | _
        · rw [hsp] at hFp hF2b
          have hFa : hashInternalF s.hash lh = rt := hFp
          have hFb : hashInternalF s.hash lh2 = rt := hF2b
          exact fnv1a_concat_diff_left s.hash lh lh2 hsw hwf1 hwf2 hdiff
            (hFa.trans hFb.symm)
        · rw [hsp] at hFp hF2b
          have hFa : hashInternalF lh s.hash = rt := hFp
          have hFb : hashInternalF lh2 s.hash = rt := hF2b
          exact fnv1a_concat_diff_right lh lh2 s.hash hwf1 hwf2 hsw hdiff
            (hFa.trans hFb.symm)
      · injection hps with hss hnil
        subst hss
        subst hps2
        subst lh2
        simp only [List.foldl_cons, List.foldl_nil] at hF2b
        have hsw : WfChars s.hash := hwf1s s (List.mem_singleton_self s)
        have hsw2 : WfChars s2.hash := hwf2s s2 (List.mem_singleton_self s2)
        rcases hsp : s.position with _ | _
        · rw [hsp] at hFp hpos
          rw [hpos] at hF2b
          have hFa : hashInternalF s.hash lh = rt := hFp
          have hFb : hashInternalF s2.hash lh = rt := hF2b
          exact fnv1a_concat_diff_right s.hash s2.hash lh hsw hsw2 hwf1 hdiffs
            (hFa.trans hFb.symm)
        · rw [hsp] at hFp hpos
          rw [hpos] at hF2b
          have hFa : hashInternalF lh s.hash = rt := hFp
          have hFb : hashInternalF lh s2.hash = rt := hF2b
          exact fnv1a_concat_diff_left lh s.hash s2.hash hwf1 hsw hsw2 hdiffs
            (hFa.trans hFb.symm)
    · simp only [List.length_cons] at hlen
      omega

/-- Witness for the amended C8: a one-sibling proof accepted at its computed
root is rejected after one character of the sibling hash changes. -/
theorem claim_C8_witness :
    verifyProof hashInternalF
      { leafIndex := 0, leafHash := jsOf "ab",
        siblings := [⟨jsOf "cd", SibPos.right⟩],
        root := hashInternalF (jsOf "ab") (jsOf "cd") } = true ∧
    verifyProof hashInternalF
      { leafIndex := 0, leafHash := jsOf "ab",
        siblings := [⟨jsOf "cc", SibPos.right⟩],
        root := hashInternalF (jsOf "ab") (jsOf "cd") } = false :=
  ⟨by decide,
   claim_C8_amended 0 0 (jsOf "ab") (jsOf "ab")
     (hashInternalF (jsOf "ab") (jsOf "cd"))
     [⟨jsOf "cd", SibPos.right⟩] [⟨jsOf "cc", SibPos.right⟩]
     (by decide)
     (by unfold WfChars; decide) (by unfold WfChars; decide)
     (by unfold WfChars; decide) (by unfold WfChars; decide)
     (by decide)
     (Or.inr ⟨rfl, ⟨jsOf "cd", SibPos.right⟩, ⟨jsOf "cc", SibPos.right⟩, rfl, rfl, rfl,
       [99], 100, 99, [], by decide, by decide, by decide⟩)⟩
